import Mathlib

/-!
Verification of the `.strings` parser, entry model and normalizer of the
`dotstrings` library, shallowly embedded from `dotstrings/parser.py`,
`dotstrings/dot_strings_entry.py`, `dotstrings/dot_stringsdict_entry.py` and
`dotstrings/__init__.py`.

Strings are modelled as `List Char`.  The regular expressions of
`parser.py`'s `Patterns` class are embedded as explicit backtracking
matchers with Python `re` semantics: alternatives are tried in order,
greedy stars try the longest extent first and backtrack, lazy stars try the
shortest first, and `.` matches every character except a newline.
-/

set_option maxHeartbeats 1000000

namespace Dotstrings

/-- Python's whitespace class (`\s` for `str` patterns / `str.isspace`):
ASCII whitespace, the C1 separators, NEL, and the Unicode space characters. -/
def isPyWs (c : Char) : Bool :=
  let n := c.toNat
  (9 ≤ n && n ≤ 13) || (28 ≤ n && n ≤ 31) || n = 32 || n = 133 || n = 160 ||
    n = 5760 || (8192 ≤ n && n ≤ 8202) || n = 8232 || n = 8233 || n = 8239 ||
    n = 8287 || n = 12288

/-- Python `str.strip()`: remove leading and trailing whitespace. -/
def pyStrip (s : List Char) : List Char :=
  ((s.dropWhile isPyWs).reverse.dropWhile isPyWs).reverse

/-- Python `str.split("\n")`: split on every newline; the empty string yields
one empty fragment. -/
def pySplitNl : List Char → List (List Char)
  | [] => [[]]
  | c :: rest =>
    match pySplitNl rest with
    | [] => [[]]
    | hd :: tl => if c = '\n' then [] :: hd :: tl else (c :: hd) :: tl

/-- First index at which `old` occurs in `s` (Python `str.find`). -/
def findSub (old : List Char) : List Char → Option Nat
  | [] => if old.isPrefixOf [] then some 0 else none
  | c :: t =>
    if old.isPrefixOf (c :: t) then some 0
    else (findSub old t).map (· + 1)

/-- Python `str.replace(old, new, 1)`: replace the first occurrence only. -/
def pyReplaceOnce (old new s : List Char) : List Char :=
  match findSub old s with
  | none => s
  | some i => s.take i ++ new ++ s.drop (i + old.length)

/-- Helper for `pyReplaceAll`, recursing on fuel. -/
def pyReplaceAllGo (old new : List Char) : Nat → List Char → List Char
  | _, [] => []
  | 0, s => s
  | fuel + 1, c :: rest =>
    if old ≠ [] ∧ old.isPrefixOf (c :: rest) then
      new ++ pyReplaceAllGo old new fuel ((c :: rest).drop old.length)
    else c :: pyReplaceAllGo old new fuel rest

/-- Python `str.replace(old, new)` for a non-empty `old`. -/
def pyReplaceAll (old new s : List Char) : List Char :=
  pyReplaceAllGo old new s.length s

/-- Python `"\r\n" in contents`. -/
def containsCRLF : List Char → Bool
  | [] => false
  | [_] => false
  | c :: d :: rest => (c = '\r' && d = '\n') || containsCRLF (d :: rest)

/-! ### The patterns of `parser.py`'s `Patterns` class

`comment   = (\'(?:[^\'\\]|\\[\s\S])*\')|//.*|/\*(?:[^*]|\*(?!/))*\*/`
`whitespace = \s*`
`entry     = "(.*)"\s*=\s*"(.*)" *;`
`quoteless_key_entry = (.*?)\s*=\s*"(.*)" *;`

Each matcher takes the suffix of the input starting at the scanner's
offset (the patterns contain no anchors or look-behind, so an anchored
`match` at an offset only depends on that suffix) and returns the matched
text together with the remaining suffix.
-/

/-- Tail of the quoted-literal comment alternative: `(?:[^'\\]|\\[\s\S])*'`.
A greedy star of (non-quote-non-backslash, or backslash plus any character),
tried before the exit into the closing quote. -/
def qlitTail : List Char → Option (List Char × List Char)
  | [] => none
  | c :: rest =>
    (if c ≠ '\'' ∧ c ≠ '\\' then (qlitTail rest).map fun p => (c :: p.1, p.2)
     else if c = '\\' then
        match rest with
        | d :: rest2 => (qlitTail rest2).map fun p => (c :: d :: p.1, p.2)
        | [] => none
     else none).orElse fun _ => if c = '\'' then some ([c], rest) else none

/-- Tail of the block comment alternative: `(?:[^*]|\*(?!/))*\*/`.
A greedy star of (non-star, or star not followed by slash), tried before the
exit into the closing `*/`. -/
def blockTail : List Char → Option (List Char × List Char)
  | [] => none
  | c :: rest =>
    (if c ≠ '*' then (blockTail rest).map fun p => (c :: p.1, p.2)
     else if rest.head? ≠ some '/' then (blockTail rest).map fun p => (c :: p.1, p.2)
     else none).orElse fun _ =>
      if c = '*' then
        match rest with
        | d :: rest2 => if d = '/' then some (['*', '/'], rest2) else none
        | [] => none
      else none

/-- First alternative of the comment pattern: `\'(?:[^\'\\]|\\[\s\S])*\'`. -/
def commentAlt1 : List Char → Option (List Char × List Char)
  | [] => none
  | c :: rest =>
    if c = '\'' then (qlitTail rest).map fun p => ('\'' :: p.1, p.2) else none

/-- Second alternative of the comment pattern: `//.*` (to end of line). -/
def commentAlt2 : List Char → Option (List Char × List Char)
  | c :: d :: rest =>
    if c = '/' ∧ d = '/' then
      some ('/' :: '/' :: rest.takeWhile (· ≠ '\n'), rest.dropWhile (· ≠ '\n'))
    else none
  | _ => none

/-- Third alternative of the comment pattern: `/\*(?:[^*]|\*(?!/))*\*/`. -/
def commentAlt3 : List Char → Option (List Char × List Char)
  | c :: d :: rest =>
    if c = '/' ∧ d = '*' then (blockTail rest).map fun p => ('/' :: '*' :: p.1, p.2)
    else none
  | _ => none

/-- `Patterns.comment`: the three alternatives, tried in order.  (The
pattern carries `re.MULTILINE`, which only affects `^`/`$` and is
irrelevant here.) -/
def commentMatch (s : List Char) : Option (List Char × List Char) :=
  (commentAlt1 s).orElse fun _ => (commentAlt2 s).orElse fun _ => commentAlt3 s

/-- Backtracking for a greedy star over a one-character class: the
candidate extents are the prefixes of the maximal run, tried longest
first.  `preRev` is the reversed part of the run still given to the star,
`post` the rest of the input. -/
def greedyDesc (f : List Char → List Char → Option α) :
    List Char → List Char → Option α
  | [], post => f [] post
  | c :: pr, post =>
    match f (c :: pr).reverse post with
    | some r => some r
    | none => greedyDesc f pr (c :: post)

/-- Backtracking for a lazy star over a one-character class: candidate
extents tried shortest first.  `preRev` is the reversed part already given
to the star, `run` the rest of the maximal run, `post` the rest of the
input. -/
def lazyAsc (f : List Char → List Char → Option α) :
    List Char → List Char → List Char → Option α
  | preRev, [], post => f preRev.reverse post
  | preRev, c :: run2, post =>
    match f preRev.reverse (c :: run2 ++ post) with
    | some r => some r
    | none => lazyAsc f (c :: preRev) run2 post

/-- Matches ` *;`: a greedy run of spaces, then a semicolon.  Returns the
consumed text and the rest. -/
def spaceSemiTail (s : List Char) : Option (List Char × List Char) :=
  greedyDesc
    (fun pre post =>
      match post with
      | c :: r => if c = ';' then some (pre ++ [';'], r) else none
      | [] => none)
    (s.takeWhile (· = ' ')).reverse (s.dropWhile (· = ' '))

/-- Matches `"(.*)" *;`: opening quote, greedy dot-star (group 2, newlines
excluded), closing quote, spaces, semicolon.  Returns (consumed, group 2,
rest). -/
def valueTail (s : List Char) : Option (List Char × List Char × List Char) :=
  match s with
  | [] => none
  | c :: s1 =>
    if c = '"' then
      greedyDesc
        (fun g2 post =>
          match post with
          | d :: p2 =>
            if d = '"' then (spaceSemiTail p2).map fun q => ('"' :: g2 ++ '"' :: q.1, g2, q.2)
            else none
          | [] => none)
        (s1.takeWhile (· ≠ '\n')).reverse (s1.dropWhile (· ≠ '\n'))
    else none

/-- Matches `\s*=\s*"(.*)" *;`: the part of both entry patterns after the
key.  Returns (consumed, group 2, rest). -/
def eqValTail (s : List Char) : Option (List Char × List Char × List Char) :=
  greedyDesc
    (fun w1 post1 =>
      match post1 with
      | c :: p1 =>
        if c = '=' then
          greedyDesc
            (fun w2 post2 =>
              (valueTail post2).map fun q => (w1 ++ '=' :: w2 ++ q.1, q.2.1, q.2.2))
            (p1.takeWhile isPyWs).reverse (p1.dropWhile isPyWs)
        else none
      | [] => none)
    (s.takeWhile isPyWs).reverse (s.dropWhile isPyWs)

/-- `Patterns.entry`: `"(.*)"\s*=\s*"(.*)" *;`.  Returns (matched text,
group 1, group 2, rest).  Without `re.DOTALL`, `.` does not match a
newline, so both groups live on a single line. -/
def entryMatch (s : List Char) : Option (List Char × List Char × List Char × List Char) :=
  match s with
  | [] => none
  | c :: s1 =>
    if c = '"' then
      greedyDesc
        (fun g1 post =>
          match post with
          | d :: p1 =>
            if d = '"' then
              (eqValTail p1).map fun q => ('"' :: g1 ++ '"' :: q.1, g1, q.2.1, q.2.2)
            else none
          | [] => none)
        (s1.takeWhile (· ≠ '\n')).reverse (s1.dropWhile (· ≠ '\n'))
    else none

/-- `Patterns.quoteless_key_entry`: `(.*?)\s*=\s*"(.*)" *;`.  The key group
is lazy: shortest extent first. -/
def quotelessMatch (s : List Char) :
    Option (List Char × List Char × List Char × List Char) :=
  lazyAsc
    (fun g1 post => (eqValTail post).map fun q => (g1 ++ q.1, g1, q.2.1, q.2.2))
    [] (s.takeWhile (· ≠ '\n')) (s.dropWhile (· ≠ '\n'))

/-- Python `pattern.search(text)`: try an anchored match at each position,
left to right. -/
def searchBy (m : List Char → Option α) : List Char → Option α
  | [] => m []
  | c :: t =>
    match m (c :: t) with
    | some r => some r
    | none => searchBy m t

/-! ### The `Scanner` class and the parse driver `loads` -/

/-- The compiled patterns the parse loop passes to `Scanner.scan`.  (The
source's `scan` also accepts string patterns and compiles them; `loads`
only ever passes the four precompiled `Patterns` members.) -/
inductive Pat
  | whitespace
  | comment
  | entry
  | quoteless_key_entry
deriving DecidableEq

/-- Anchored match of a pattern against the suffix of the input at the
scanner's offset: the matched text (`match.group(0)`) and the remaining
suffix. -/
def patMatch : Pat → List Char → Option (List Char × List Char)
  | .whitespace, s => some (s.takeWhile isPyWs, s.dropWhile isPyWs)
  | .comment, s => commentMatch s
  | .entry, s => (entryMatch s).map fun r => (r.1, r.2.2.2)
  | .quoteless_key_entry, s => (quotelessMatch s).map fun r => (r.1, r.2.2.2)

/-- The `Scanner` class: an immutable buffer plus a cursor (`offset`) and a
running `line` counter. -/
structure Scanner where
  string : List Char
  offset : Nat
  line : Nat
deriving DecidableEq

/-- `Scanner.has_more`. -/
def Scanner.has_more (sc : Scanner) : Bool :=
  sc.offset < sc.string.length

/-- `Scanner.scan`: anchored match at `offset`.  On success the offset
advances to the end of the match (`match.end()`), the line counter grows by
the number of newlines in the matched text, and the matched text is
returned; on failure the state is unchanged and `none` is returned. -/
def Scanner.scan (sc : Scanner) (p : Pat) : Option (List Char) × Scanner :=
  match patMatch p (sc.string.drop sc.offset) with
  | none => (none, sc)
  | some (txt, _) =>
    (some txt,
      { sc with offset := sc.offset + txt.length, line := sc.line + txt.count '\n' })

/-- The entry model of `dot_strings_entry.py`.  Structural equality in the
source (`__eq__`) compares key, value and comments but not
`original_line`. -/
structure DotStringsEntry where
  key : List Char
  value : List Char
  comments : List (List Char)
  original_line : Nat
deriving DecidableEq

/-- Errors raised by `loads` (all are `DotStringsException` in the source,
distinguished here by their messages: "Strings contain CRLF",
"Expected an entry at offset …", "Failed to parse entry at offset …"). -/
inductive DSError
  | crlf
  | expectedEntry (offset : Nat)
  | failedParse (offset : Nat)
deriving DecidableEq

/-- Strip the comment delimiters, trim, and split a multi-line comment into
trimmed fragments — the body of the comment branch of the parse loop. -/
def processComment (comment : List Char) : List (List Char) :=
  let comment2 :=
    if ("//".toList).isPrefixOf comment then
      pyReplaceOnce "//".toList [] comment
    else if ("/*".toList).isPrefixOf comment then
      (pyReplaceOnce "/*".toList [] ((pyReplaceOnce "/*".toList [] comment).reverse)).reverse
    else comment
  (pySplitNl (pyStrip comment2)).map pyStrip

/-- The inner `while True` comment loop of `loads`: scan a comment; if none
matched, stop; otherwise process it, skip whitespace and repeat.  Each
matched comment is non-empty, so fuel `string.length + 1` never runs
out. -/
def commentLoop : Nat → Scanner → List (List Char) → Scanner × List (List Char)
  | 0, sc, acc => (sc, acc)
  | fuel + 1, sc, acc =>
    match sc.scan .comment with
    | (none, _) => (sc, acc)
    | (some txt, sc1) =>
      commentLoop fuel ((sc1.scan .whitespace).2) (acc ++ processComment txt)

/-- One pass of the main `while scanner.has_more()` loop of `loads`,
recursing on fuel.  Every iteration that continues consumes a non-empty
entry match, so fuel `string.length + 1` never runs out. -/
def loadsLoop : Nat → Scanner → List DotStringsEntry → Except DSError (List DotStringsEntry)
  | 0, _, acc => .ok acc
  | fuel + 1, sc, acc =>
    if sc.has_more then
      let sc1 := (sc.scan .whitespace).2
      let step := commentLoop (sc1.string.length + 1) sc1 []
      let sc2 := step.1
      let comments := step.2
      match sc2.scan .entry with
      | (some txt, sc3) =>
        match searchBy entryMatch txt with
        | some r =>
          loadsLoop fuel sc3 (acc ++ [⟨r.2.1, r.2.2.1, comments, sc3.line⟩])
        | none => .error (.failedParse sc3.offset)
      | (none, _) =>
        match sc2.scan .quoteless_key_entry with
        | (some txt, sc3) =>
          match searchBy quotelessMatch txt with
          | some r =>
            loadsLoop fuel sc3 (acc ++ [⟨r.2.1, r.2.2.1, comments, sc3.line⟩])
          | none => .error (.failedParse sc3.offset)
        | (none, _) =>
          if sc2.has_more then .error (.expectedEntry sc2.offset)
          else .ok acc
    else .ok acc

/-- `loads`: parse the contents of a `.strings` file.  Input containing a
CRLF sequence is rejected up front; the following `replace` is then a
no-op. -/
def loads (contents : List Char) : Except DSError (List DotStringsEntry) :=
  if containsCRLF contents then .error .crlf
  else
    let contents2 := pyReplaceAll ['\r', '\n'] ['\n'] contents
    loadsLoop (contents2.length + 1) ⟨contents2, 0, 0⟩ []

/-! ### `DotStringsEntry.strings_format` -/

/-- `strings_format`: serialize one entry back to `.strings` text,
dispatching on the number of comments. -/
def DotStringsEntry.strings_format (e : DotStringsEntry) : List Char :=
  let key_value := '"' :: e.key ++ '"' :: " = ".toList ++ '"' :: e.value ++ "\";".toList
  match e.comments with
  | [] => key_value
  | [c] => "/* ".toList ++ c ++ " */\n".toList ++ key_value
  | [c1, c2] =>
    "/* ".toList ++ c1 ++ "\n   ".toList ++ c2 ++ " */\n".toList ++ key_value
  | c1 :: c2 :: c3 :: rest =>
    "/* ".toList ++ c1 ++ "\n".toList ++
      ((c2 :: c3 :: rest).dropLast.foldl
        (fun out c => out ++ "   ".toList ++ c ++ "\n".toList) []) ++
      "   ".toList ++ (c2 :: c3 :: rest).getLastD [] ++ " */\n".toList ++ key_value

/-! ### `dot_stringsdict_entry.py`: `Variable` and `DotStringsDictEntry` -/

/-- A `.stringsdict` entry variable: the value type plus the six optional
plural-variant values. -/
structure Variable where
  value_type : Option (List Char)
  zero_value : Option (List Char)
  one_value : Option (List Char)
  two_value : Option (List Char)
  few_value : Option (List Char)
  many_value : Option (List Char)
  other_value : Option (List Char)
deriving DecidableEq

/-- A `.stringsdict` entry; `variables` models the Python dict as an
insertion-ordered association list. -/
structure DotStringsDictEntry where
  key : List Char
  value : List Char
  «variables» : List (List Char × Variable)
deriving DecidableEq

/-- Python `dict.get` on the association list. -/
def lookupVar (k : List Char) : List (List Char × Variable) → Option Variable
  | [] => none
  | kv :: rest => if kv.1 = k then some kv.2 else lookupVar k rest

/-- `DotStringsDictEntry.merge`: for each of the receiver's variables, if
the other entry has a variable of the same name, every one of the seven
fields is assigned from the other's variable; otherwise the receiver's
variable is untouched.  (The source mutates in place; here the updated
entry is returned.) -/
def DotStringsDictEntry.merge (self another : DotStringsDictEntry) : DotStringsDictEntry :=
  { self with
    «variables» := self.variables.map fun kv =>
      match lookupVar kv.1 another.variables with
      | some w =>
        (kv.1,
          { value_type := w.value_type
            zero_value := w.zero_value
            one_value := w.one_value
            two_value := w.two_value
            few_value := w.few_value
            many_value := w.many_value
            other_value := w.other_value })
      | none => kv }

/-! ### `normalize` from `__init__.py`

`normalize` loads a file, sorts the entries by `[key] + comments` (Python
list-of-strings comparison), deduplicates starting from `entries[0]`,
optionally sorts each entry's comments, and writes the result back out.
The file I/O is outside the embedding; `normalizeEntries` models the
transformation applied to the parsed entry list. -/

/-- Errors of the normalization path: the explicit duplicate-key
exception, and the `IndexError` from `entries[0]` on an empty list. -/
inductive NormError
  | duplicateKey (key : List Char)
  | indexError
deriving DecidableEq

/-- Python string `<`: lexicographic comparison by code point. -/
def strLt : List Char → List Char → Bool
  | [], [] => false
  | [], _ :: _ => true
  | _ :: _, [] => false
  | a :: as, b :: bs => if a < b then true else if a = b then strLt as bs else false

/-- Python list-of-strings `<`: lexicographic over `strLt`. -/
def keyLt : List (List Char) → List (List Char) → Bool
  | [], [] => false
  | [], _ :: _ => true
  | _ :: _, [] => false
  | a :: as, b :: bs => if strLt a b then true else if a = b then keyLt as bs else false

/-- The sort key of `normalize`: `[x.key] + x.comments`. -/
def sortKey (e : DotStringsEntry) : List (List Char) := e.key :: e.comments

/-- The (total, transitive) `≤` relation induced by Python's stable
ascending sort with key `sortKey`. -/
def entryLe (a b : DotStringsEntry) : Bool := ! keyLt (sortKey b) (sortKey a)

/-- The deduplication pass of `normalize`: walk the sorted tail, comparing
each entry with the last kept one; distinct keys are appended, equal keys
with equal values (and duplicate removal enabled) are merged by extending
the kept entry's comments, anything else raises the duplicate-key error. -/
def dedupeGo (rd : Bool) :
    DotStringsEntry → List DotStringsEntry → List DotStringsEntry →
      Except NormError (List DotStringsEntry)
  | last, done, [] => .ok (done ++ [last])
  | last, done, e :: rest =>
    if last.key ≠ e.key then dedupeGo rd e (done ++ [last]) rest
    else if last.value ≠ e.value ∨ rd = false then .error (.duplicateKey e.key)
    else dedupeGo rd { last with comments := last.comments ++ e.comments } done rest

/-- Python `sorted(list(set(comments)))`: the comments as a sorted list of
distinct strings (the intermediate unordered `set` is unobservable after
the sort). -/
def sortedComments (cs : List (List Char)) : List (List Char) :=
  cs.dedup.mergeSort fun a b => ! strLt b a

/-- The entry-list transformation performed by `normalize`: sort by
`[key] + comments`, deduplicate starting from the first element
(`entries[0]` — an index error on an empty list), then optionally sort
each entry's comments. -/
def normalizeEntries (entries : List DotStringsEntry)
    (remove_duplicates sort_comments : Bool) :
    Except NormError (List DotStringsEntry) :=
  match entries.mergeSort entryLe with
  | [] => .error .indexError
  | h :: t =>
    (dedupeGo remove_duplicates h [] t).map fun ds =>
      if sort_comments then
        ds.map fun e => { e with comments := sortedComments e.comments }
      else ds

/-! ### Helper lemmas -/

theorem containsCRLF_of_append (a b : List Char) :
    containsCRLF (a ++ '\r' :: '\n' :: b) = true := by
  induction a with
  | nil => simp [containsCRLF]
  | cons c a ih =>
    rcases ha : a ++ '\r' :: '\n' :: b with _ | ⟨d, rest⟩
    · exact absurd ha (by simp)
    · rw [ha] at ih
      show containsCRLF (c :: (a ++ '\r' :: '\n' :: b)) = true
      rw [ha, containsCRLF, ih, Bool.or_true]

theorem scan_eq_none (sc : Scanner) (p : Pat)
    (hm : patMatch p (sc.string.drop sc.offset) = none) : sc.scan p = (none, sc) := by
  rw [Scanner.scan, hm]

theorem scan_eq_some (sc : Scanner) (p : Pat) (txt rest : List Char)
    (hm : patMatch p (sc.string.drop sc.offset) = some (txt, rest)) :
    sc.scan p =
      (some txt, ⟨sc.string, sc.offset + txt.length, sc.line + txt.count '\n'⟩) := by
  rw [Scanner.scan, hm]

theorem foldl_format_comments (l : List (List Char)) (init : List Char) :
    l.foldl (fun out c => out ++ "   ".toList ++ c ++ "\n".toList) init =
      init ++ (l.map fun c => "   ".toList ++ c ++ "\n".toList).flatten := by
  induction l generalizing init with
  | nil => simp
  | cons c l ih =>
    rw [List.foldl_cons, ih, List.map_cons, List.flatten_cons]
    simp [List.append_assoc]

end Dotstrings

deriving instance DecidableEq for Except

namespace Dotstrings

/-! ### The claims -/

/-- Claim C1 (code bug): the spec and the repository's own test
`test_string_with_multiline_value` say that an entry whose quoted value
spans literal newlines parses to a value with the embedded newlines, but
`Patterns.entry` is compiled without `re.DOTALL`, so `.` cannot cross a
line break: on the spec's own example the parse fails with
"Expected an entry at offset 0". -/
theorem c1_multiline_value_fails :
    loads "\"key-case1\" = \"value\nthat\nhas\nnewlines\";".toList =
      .error (.expectedEntry 0) := by decide

/-- Claim C2: any input containing the two-character sequence CRLF anywhere
is rejected by `loads` with the CRLF error before any scanning, and no
entry list is returned. -/
theorem c2_crlf_rejected (s a b : List Char) (h : s = a ++ '\r' :: '\n' :: b) :
    loads s = .error .crlf := by
  subst h
  rw [loads, containsCRLF_of_append]
  rfl

/-- Witness for C2 at a concrete CRLF input. -/
theorem c2_crlf_rejected_witness :
    loads "\"k\" = \"v\";\r\n".toList = .error .crlf :=
  c2_crlf_rejected _ "\"k\" = \"v\";".toList [] (by decide)

/-- Claim C4: `strings_format` dispatches on the number of comments and
reproduces the layout exactly: no comment block, a one-line block, a
two-line block with three-space continuation indent, or an n-line block
with every middle comment on its own indented line. -/
theorem c4_strings_format_dispatch (e : DotStringsEntry) :
    (e.comments = [] →
      e.strings_format =
        '"' :: e.key ++ '"' :: " = ".toList ++ '"' :: e.value ++ "\";".toList) ∧
    (∀ c, e.comments = [c] →
      e.strings_format =
        "/* ".toList ++ c ++ " */\n".toList ++
          ('"' :: e.key ++ '"' :: " = ".toList ++ '"' :: e.value ++ "\";".toList)) ∧
    (∀ c1 c2, e.comments = [c1, c2] →
      e.strings_format =
        "/* ".toList ++ c1 ++ "\n   ".toList ++ c2 ++ " */\n".toList ++
          ('"' :: e.key ++ '"' :: " = ".toList ++ '"' :: e.value ++ "\";".toList)) ∧
    (∀ c1 cs, e.comments = c1 :: cs → 2 ≤ cs.length →
      e.strings_format =
        "/* ".toList ++ c1 ++ "\n".toList ++
          (cs.dropLast.map fun c => "   ".toList ++ c ++ "\n".toList).flatten ++
          "   ".toList ++ cs.getLastD [] ++ " */\n".toList ++
          ('"' :: e.key ++ '"' :: " = ".toList ++ '"' :: e.value ++ "\";".toList)) := by
  obtain ⟨k, v, cms, ln⟩ := e
  refine ⟨fun h => ?_, fun c h => ?_, fun c1 c2 h => ?_, fun c1 cs h hlen => ?_⟩
  · simp only at h; subst h; rfl
  · simp only at h; subst h; rfl
  · simp only at h; subst h; rfl
  · match cs, hlen with
    | c2 :: c3 :: rest, _ =>
      simp only at h; subst h
      show "/* ".toList ++ c1 ++ "\n".toList ++
          ((c2 :: c3 :: rest).dropLast.foldl
            (fun out c => out ++ "   ".toList ++ c ++ "\n".toList) []) ++
          "   ".toList ++ (c2 :: c3 :: rest).getLastD [] ++ " */\n".toList ++ _ = _
      rw [foldl_format_comments, List.nil_append]

/-- Witness for C4: the four branches at concrete comment lists. -/
theorem c4_strings_format_dispatch_witness :
    (DotStringsEntry.strings_format ⟨"k".toList, "v".toList, [], 0⟩ =
      "\"k\" = \"v\";".toList) ∧
    (DotStringsEntry.strings_format ⟨"k".toList, "v".toList, ["a".toList], 0⟩ =
      "/* a */\n\"k\" = \"v\";".toList) ∧
    (DotStringsEntry.strings_format ⟨"k".toList, "v".toList, ["a".toList, "b".toList], 0⟩ =
      "/* a\n   b */\n\"k\" = \"v\";".toList) ∧
    (DotStringsEntry.strings_format
        ⟨"k".toList, "v".toList, ["a".toList, "b".toList, "c".toList, "d".toList], 0⟩ =
      "/* a\n   b\n   c\n   d */\n\"k\" = \"v\";".toList) := by
  refine ⟨?_, ?_, ?_, ?_⟩
  · rw [(c4_strings_format_dispatch _).1 (by decide)]; decide
  · rw [(c4_strings_format_dispatch _).2.1 "a".toList (by decide)]; decide
  · rw [(c4_strings_format_dispatch _).2.2.1 "a".toList "b".toList (by decide)]; decide
  · rw [(c4_strings_format_dispatch _).2.2.2 "a".toList
      ["b".toList, "c".toList, "d".toList] (by decide) (by decide)]; decide

/-- Claim C6: `Scanner.scan` leaves the state untouched and returns no
match on failure; on success it returns the anchored match's text, leaves
the buffer unchanged, advances the offset exactly to the end of the match
and increments the line counter by exactly the number of newlines in the
matched text. -/
theorem c6_scan_frame (sc : Scanner) (p : Pat) :
    ((sc.scan p).1 = none → (sc.scan p).2 = sc) ∧
    (∀ txt, (sc.scan p).1 = some txt →
      (∃ rest, patMatch p (sc.string.drop sc.offset) = some (txt, rest)) ∧
      (sc.scan p).2.string = sc.string ∧
      (sc.scan p).2.offset = sc.offset + txt.length ∧
      (sc.scan p).2.line = sc.line + txt.count '\n') := by
  constructor
  · intro h
    cases hm : patMatch p (sc.string.drop sc.offset) with
    | none => rw [scan_eq_none sc p hm]
    | some pr =>
      rw [scan_eq_some sc p pr.1 pr.2 (by rw [hm])] at h
      simp at h
  · intro txt h
    cases hm : patMatch p (sc.string.drop sc.offset) with
    | none => rw [scan_eq_none sc p hm] at h; simp at h
    | some pr =>
      obtain ⟨t2, r2⟩ := pr
      rw [scan_eq_some sc p t2 r2 hm] at h ⊢
      simp only [Option.some.injEq] at h
      subst h
      exact ⟨⟨r2, rfl⟩, rfl, rfl, rfl⟩

/-- Witness for C6: the failure branch on an entry pattern that does not
match, and the success branch on a whitespace run containing a newline. -/
theorem c6_scan_frame_witness :
    ((Scanner.mk "x".toList 0 0).scan .entry).2 = Scanner.mk "x".toList 0 0 ∧
    ((Scanner.mk " \n a".toList 0 5).scan .whitespace).2.offset = 0 + (" \n ".toList).length ∧
    ((Scanner.mk " \n a".toList 0 5).scan .whitespace).2.line = 5 + (" \n ".toList).count '\n' :=
  ⟨(c6_scan_frame (Scanner.mk "x".toList 0 0) .entry).1 (by decide),
   ((c6_scan_frame (Scanner.mk " \n a".toList 0 5) .whitespace).2 " \n ".toList
      (by decide)).2.2.1,
   ((c6_scan_frame (Scanner.mk " \n a".toList 0 5) .whitespace).2 " \n ".toList
      (by decide)).2.2.2⟩

/-- Concrete receiver for the C8 counterexample: one variable `n` whose
`zero` variant is defined. -/
def c8self : DotStringsDictEntry :=
  ⟨"k".toList, "f".toList,
    [("n".toList, ⟨some "d".toList, some "z".toList, none, none, none, none, none⟩)]⟩

/-- Concrete argument for the C8 counterexample: the same variable `n`,
with `zero` absent. -/
def c8another : DotStringsDictEntry :=
  ⟨"k".toList, "f".toList,
    [("n".toList, ⟨some "d".toList, none, none, none, none, none, none⟩)]⟩

/-- Counterexample to claim C8: variable `n` is defined in both entries and
`another` does not define its `zero` variant, so per the claim the
receiver's `zero` value would be kept — but `merge` copies every field
wholesale, so the merged `zero` value is `none`, not the receiver's. -/
theorem c8_counterexample :
    (lookupVar "n".toList (c8self.merge c8another).variables).map Variable.zero_value =
      some none ∧
    (lookupVar "n".toList c8self.variables).map Variable.zero_value =
      some (some "z".toList) ∧
    (lookupVar "n".toList c8another.variables).map Variable.zero_value = some none := by
  decide

/-- Claim C8, amended: `merge` keeps exactly the receiver's variable names;
for a name the other entry also defines, all seven fields (the value type
and every plural-variant value) are taken wholesale from the other entry's
variable — the receiver's individual values are not preserved even where
the other entry's are absent; names the other entry does not define keep
the receiver's variable unchanged. -/
theorem c8_merge_wholesale (self another : DotStringsDictEntry) (name : List Char) :
    lookupVar name (self.merge another).variables =
      match lookupVar name self.variables with
      | none => none
      | some v =>
        match lookupVar name another.variables with
        | none => some v
        | some w =>
          some ⟨w.value_type, w.zero_value, w.one_value, w.two_value, w.few_value,
            w.many_value, w.other_value⟩ := by
  show lookupVar name (self.variables.map _) = _
  induction self.variables with
  | nil => rfl
  | cons kv rest ih =>
    by_cases hk : kv.1 = name
    · subst hk
      cases hl : lookupVar kv.1 another.variables <;>
        simp [lookupVar, hl, List.map_cons]
    · cases hl : lookupVar kv.1 another.variables <;>
        simpa [lookupVar, hl, List.map_cons, hk] using ih

/-- Shared driver-iteration lemma: when neither entry pattern matches
after the whitespace and comment scans, the loop errors at the current
offset if input remains and otherwise returns the accumulated entries. -/
theorem loadsLoop_no_match (fuel : Nat) (sc : Scanner) (acc : List DotStringsEntry)
    (hmore : sc.has_more = true) (sc2 : Scanner) (comments : List (List Char))
    (hwc : commentLoop ((sc.scan .whitespace).2.string.length + 1)
      (sc.scan .whitespace).2 [] = (sc2, comments))
    (hentry : patMatch .entry (sc2.string.drop sc2.offset) = none)
    (hquoteless : patMatch .quoteless_key_entry (sc2.string.drop sc2.offset) = none) :
    loadsLoop (fuel + 1) sc acc =
      if sc2.has_more then .error (.expectedEntry sc2.offset) else .ok acc := by
  rw [loadsLoop]
  simp only [hmore, if_true, hwc, scan_eq_none sc2 .entry hentry,
    scan_eq_none sc2 .quoteless_key_entry hquoteless]

/-- Claim C5: whenever, after the whitespace and comment scans of one
driver iteration, neither entry pattern matches at the cursor, `loads`'
loop raises the expected-entry error carrying the current offset if input
remains, and otherwise stops successfully with the entries accumulated so
far. -/
theorem c5_driver_no_match (fuel : Nat) (sc : Scanner) (acc : List DotStringsEntry)
    (hmore : sc.has_more = true) (sc2 : Scanner) (comments : List (List Char))
    (hwc : commentLoop ((sc.scan .whitespace).2.string.length + 1)
      (sc.scan .whitespace).2 [] = (sc2, comments))
    (hentry : patMatch .entry (sc2.string.drop sc2.offset) = none)
    (hquoteless : patMatch .quoteless_key_entry (sc2.string.drop sc2.offset) = none) :
    loadsLoop (fuel + 1) sc acc =
      if sc2.has_more then .error (.expectedEntry sc2.offset) else .ok acc :=
  loadsLoop_no_match fuel sc acc hmore sc2 comments hwc hentry hquoteless

/-- Witness for C5: both arms at concrete inputs — a dangling key with no
`=` fails with the expected-entry error at its offset, while input
exhausted after trailing comments stops successfully. -/
theorem c5_driver_no_match_witness :
    loadsLoop 1 (Scanner.mk "x".toList 0 0) [] = .error (.expectedEntry 0) ∧
    loadsLoop 1 (Scanner.mk "/* c */".toList 0 0) [] = .ok [] := by
  constructor
  · rw [c5_driver_no_match 0 (Scanner.mk "x".toList 0 0) [] (by decide)
      (Scanner.mk "x".toList 0 0) [] (by decide) (by decide) (by decide)]
    decide
  · rw [c5_driver_no_match 0 (Scanner.mk "/* c */".toList 0 0) [] (by decide)
      (Scanner.mk "/* c */".toList 7 0) ["c".toList] (by decide) (by decide) (by decide)]
    decide

/-! ### Order lemmas for the normalizer's sort -/

theorem strLt_irrefl : ∀ a : List Char, strLt a a = false := by
  intro a
  induction a with
  | nil => rfl
  | cons x xs ih => rw [strLt]; simp [lt_irrefl, ih]

theorem strLt_asymm : ∀ a b : List Char, strLt a b = true → strLt b a = false := by
  intro a
  induction a with
  | nil =>
    intro b h
    cases b with
    | nil => simp [strLt] at h
    | cons y ys => simp [strLt]
  | cons x xs ih =>
    intro b h
    cases b with
    | nil => simp [strLt] at h
    | cons y ys =>
      rw [strLt] at h ⊢
      by_cases hxy : x < y
      · have h1 : ¬ y < x := lt_asymm hxy
        have h2 : ¬ y = x := (ne_of_lt hxy).symm
        simp [h1, h2]
      · by_cases he : x = y
        · subst he
          rw [if_neg (lt_irrefl x), if_pos rfl] at h ⊢
          exact ih _ h
        · simp [hxy, he] at h

theorem strLt_eq_of_not : ∀ a b : List Char,
    strLt a b = false → strLt b a = false → a = b := by
  intro a
  induction a with
  | nil =>
    intro b h1 _
    cases b with
    | nil => rfl
    | cons y ys => simp [strLt] at h1
  | cons x xs ih =>
    intro b h1 h2
    cases b with
    | nil => simp [strLt] at h2
    | cons y ys =>
      rw [strLt] at h1 h2
      by_cases hxy : x < y
      · simp [hxy] at h1
      · by_cases hyx : y < x
        · simp [hyx] at h2
        · have he : x = y := le_antisymm (not_lt.mp hyx) (not_lt.mp hxy)
          subst he
          rw [if_neg (lt_irrefl x), if_pos rfl] at h1 h2
          rw [ih _ h1 h2]

theorem strLt_trans : ∀ a b c : List Char,
    strLt a b = true → strLt b c = true → strLt a c = true := by
  intro a
  induction a with
  | nil =>
    intro b c h1 h2
    cases b with
    | nil => simp [strLt] at h1
    | cons y ys =>
      cases c with
      | nil => simp [strLt] at h2
      | cons z zs => simp [strLt]
  | cons x xs ih =>
    intro b c h1 h2
    cases b with
    | nil => simp [strLt] at h1
    | cons y ys =>
      cases c with
      | nil => simp [strLt] at h2
      | cons z zs =>
        rw [strLt] at h1 h2 ⊢
        by_cases hxy : x < y
        · by_cases hyz : y < z
          · simp [lt_trans hxy hyz]
          · by_cases hez : y = z
            · subst hez; simp [hxy]
            · simp [hyz, hez] at h2
        · by_cases hexy : x = y
          · subst hexy
            rw [if_neg (lt_irrefl x), if_pos rfl] at h1
            by_cases hyz : x < z
            · simp [hyz]
            · by_cases hez : x = z
              · subst hez
                rw [if_neg (lt_irrefl x), if_pos rfl] at h2 ⊢
                exact ih _ _ h1 h2
              · simp [hyz, hez] at h2
          · simp [hxy, hexy] at h1

theorem strLt_self_ne_true (x : List Char) : ¬ strLt x x = true := by
  rw [strLt_irrefl]; exact Bool.false_ne_true

theorem keyLt_irrefl : ∀ a : List (List Char), keyLt a a = false := by
  intro a
  induction a with
  | nil => rfl
  | cons x xs ih => rw [keyLt]; simp [strLt_irrefl, ih]

theorem keyLt_asymm : ∀ a b : List (List Char), keyLt a b = true → keyLt b a = false := by
  intro a
  induction a with
  | nil =>
    intro b h
    cases b with
    | nil => simp [keyLt] at h
    | cons y ys => simp [keyLt]
  | cons x xs ih =>
    intro b h
    cases b with
    | nil => simp [keyLt] at h
    | cons y ys =>
      rw [keyLt] at h ⊢
      by_cases hxy : strLt x y = true
      · have h1 : strLt y x = false := strLt_asymm _ _ hxy
        have h2 : ¬ y = x := by
          intro he; subst he; rw [strLt_irrefl] at hxy; cases hxy
        simp [h1, h2]
      · by_cases he : x = y
        · subst he
          rw [if_neg (strLt_self_ne_true x), if_pos rfl] at h ⊢
          exact ih _ h
        · simp [hxy, he] at h

theorem keyLt_eq_of_not : ∀ a b : List (List Char),
    keyLt a b = false → keyLt b a = false → a = b := by
  intro a
  induction a with
  | nil =>
    intro b h1 _
    cases b with
    | nil => rfl
    | cons y ys => simp [keyLt] at h1
  | cons x xs ih =>
    intro b h1 h2
    cases b with
    | nil => simp [keyLt] at h2
    | cons y ys =>
      rw [keyLt] at h1 h2
      by_cases hxy : strLt x y = true
      · simp [hxy] at h1
      · by_cases hyx : strLt y x = true
        · simp [hyx] at h2
        · have he : x = y :=
            strLt_eq_of_not _ _ (Bool.not_eq_true _ ▸ hxy) (Bool.not_eq_true _ ▸ hyx)
          subst he
          rw [if_neg (strLt_self_ne_true x), if_pos rfl] at h1 h2
          rw [ih _ h1 h2]

theorem keyLt_trans : ∀ a b c : List (List Char),
    keyLt a b = true → keyLt b c = true → keyLt a c = true := by
  intro a
  induction a with
  | nil =>
    intro b c h1 h2
    cases b with
    | nil => simp [keyLt] at h1
    | cons y ys =>
      cases c with
      | nil => simp [keyLt] at h2
      | cons z zs => simp [keyLt]
  | cons x xs ih =>
    intro b c h1 h2
    cases b with
    | nil => simp [keyLt] at h1
    | cons y ys =>
      cases c with
      | nil => simp [keyLt] at h2
      | cons z zs =>
        rw [keyLt] at h1 h2 ⊢
        by_cases hxy : strLt x y = true
        · by_cases hyz : strLt y z = true
          · simp [strLt_trans _ _ _ hxy hyz]
          · by_cases hez : y = z
            · subst hez; simp [hxy]
            · simp [hyz, hez] at h2
        · by_cases hexy : x = y
          · subst hexy
            rw [if_neg (strLt_self_ne_true x), if_pos rfl] at h1
            by_cases hyz : strLt x z = true
            · simp [hyz]
            · by_cases hez : x = z
              · subst hez
                rw [if_neg (strLt_self_ne_true x), if_pos rfl] at h2 ⊢
                exact ih _ _ h1 h2
              · simp [hyz, hez] at h2
          · simp [hxy, hexy] at h1

theorem entryLe_total : ∀ a b : DotStringsEntry, entryLe a b || entryLe b a := by
  intro a b
  rw [entryLe, entryLe]
  by_cases h1 : keyLt (sortKey b) (sortKey a) = true
  · simp [h1, keyLt_asymm _ _ h1]
  · simp [h1]

theorem entryLe_trans : ∀ a b c : DotStringsEntry,
    entryLe a b = true → entryLe b c = true → entryLe a c = true := by
  intro a b c h1 h2
  rw [entryLe, Bool.not_eq_true'] at h1 h2 ⊢
  by_cases h3 : keyLt (sortKey c) (sortKey a) = true
  · exfalso
    by_cases h4 : keyLt (sortKey b) (sortKey c) = true
    · rw [keyLt_trans _ _ _ h4 h3] at h1; cases h1
    · have he : sortKey b = sortKey c :=
        keyLt_eq_of_not _ _ (Bool.not_eq_true _ ▸ h4) h2
      rw [← he] at h3
      rw [h3] at h1; cases h1
  · simp only [Bool.not_eq_true] at h3; exact h3

/-- The key-level weak order that the lexicographic sort guarantees between
any two elements of the sorted list. -/
theorem entryLe_key (a b : DotStringsEntry) (h : entryLe a b = true) :
    strLt b.key a.key = false := by
  rw [entryLe, Bool.not_eq_true'] at h
  rw [sortKey, sortKey, keyLt] at h
  by_cases hlt : strLt b.key a.key = true
  · rw [if_pos hlt] at h; cases h
  · simp only [Bool.not_eq_true] at hlt; exact hlt

/-- The absence-of-conflict relation of claim C7: two entries only agree if
equal keys imply equal values with duplicate removal enabled. -/
def entryQ (rd : Bool) (a b : DotStringsEntry) : Prop :=
  a.key = b.key → (a.value = b.value ∧ rd = true)

theorem entryQ_symm (rd : Bool) : ∀ {a b : DotStringsEntry},
    entryQ rd a b → entryQ rd b a := by
  intro a b h hk
  obtain ⟨hv, hr⟩ := h hk.symm
  exact ⟨hv.symm, hr⟩

/-- The deduplication walk raises the duplicate-key error exactly when the
sorted list it processes has a conflicting pair. -/
theorem dedupeGo_dup_iff (rd : Bool) :
    ∀ (rest : List DotStringsEntry) (last : DotStringsEntry)
      (done : List DotStringsEntry),
      List.Pairwise (fun a b => strLt b.key a.key = false) (last :: rest) →
      ((∃ k, dedupeGo rd last done rest = .error (.duplicateKey k)) ↔
        ¬ List.Pairwise (entryQ rd) (last :: rest)) := by
  intro rest
  induction rest with
  | nil =>
    intro last done _
    constructor
    · rintro ⟨k, hk⟩; rw [dedupeGo] at hk; cases hk
    · intro h
      exact absurd (List.pairwise_singleton _ _) h
  | cons e rest ih =>
    intro last done hsorted
    rw [dedupeGo]
    by_cases hkey : last.key ≠ e.key
    · rw [if_pos hkey]
      have hs2 : List.Pairwise (fun a b => strLt b.key a.key = false) (e :: rest) :=
        (List.pairwise_cons.mp hsorted).2
      rw [ih e (done ++ [last]) hs2]
      constructor
      · intro h hP
        exact h (List.pairwise_cons.mp hP).2
      · intro h hP
        apply h
        rw [List.pairwise_cons]
        refine ⟨?_, hP⟩
        intro x hx hkx
        exfalso
        rcases List.mem_cons.mp hx with hx | hx
        · subst hx; exact hkey hkx
        · have hxl : strLt x.key last.key = false :=
            (List.pairwise_cons.mp hsorted).1 x (List.mem_cons_of_mem _ hx)
          have hxe : strLt x.key e.key = false :=
            (List.pairwise_cons.mp hs2).1 x hx
          have hel : strLt e.key last.key = false :=
            (List.pairwise_cons.mp hsorted).1 e (List.mem_cons_self _ _)
          rw [← hkx] at hxe
          have : last.key = e.key := strLt_eq_of_not _ _ hxe hel
          exact hkey this
    · rw [if_neg hkey]
      push_neg at hkey
      by_cases hcond : last.value ≠ e.value ∨ rd = false
      · rw [if_pos hcond]
        constructor
        · intro _ hP
          have hQ := (List.pairwise_cons.mp hP).1 e (List.mem_cons_self _ _) hkey
          rcases hcond with hv | hr
          · exact hv hQ.1
          · rw [hQ.2] at hr; cases hr
        · intro _; exact ⟨e.key, rfl⟩
      · rw [if_neg hcond]
        push_neg at hcond
        obtain ⟨hval, hrd2⟩ := hcond
        have hrd : rd = true := by
          cases rd
          · exact absurd rfl hrd2
          · rfl
        have hs2 : List.Pairwise (fun a b => strLt b.key a.key = false)
            ({ last with comments := last.comments ++ e.comments } :: rest) := by
          rw [List.pairwise_cons]
          exact ⟨fun x hx => (List.pairwise_cons.mp hsorted).1 x (List.mem_cons_of_mem _ hx),
            ((List.pairwise_cons.mp (List.pairwise_cons.mp hsorted).2).2)⟩
        rw [ih _ done hs2]
        constructor
        · intro h hP
          apply h
          obtain ⟨h1, h2⟩ := List.pairwise_cons.mp hP
          obtain ⟨_, h4⟩ := List.pairwise_cons.mp h2
          exact List.pairwise_cons.mpr
            ⟨fun x hx => h1 x (List.mem_cons_of_mem _ hx), h4⟩
        · intro h hP
          apply h
          obtain ⟨h1, h2⟩ := List.pairwise_cons.mp hP
          refine List.pairwise_cons.mpr ⟨?_, List.pairwise_cons.mpr ⟨?_, h2⟩⟩
          · intro x hx
            rcases List.mem_cons.mp hx with hx | hx
            · subst hx; exact fun _ => ⟨hval, hrd⟩
            · exact h1 x hx
          · intro x hx hke
            have hq := h1 x hx (hkey.trans hke)
            exact ⟨hval ▸ hq.1, hq.2⟩

/-- The deduplication walk never produces the index error. -/
theorem dedupeGo_shape (rd : Bool) :
    ∀ (rest : List DotStringsEntry) (last : DotStringsEntry)
      (done : List DotStringsEntry),
      (∃ l, dedupeGo rd last done rest = .ok l) ∨
        (∃ k, dedupeGo rd last done rest = .error (.duplicateKey k)) := by
  intro rest
  induction rest with
  | nil => intro last done; exact .inl ⟨done ++ [last], rfl⟩
  | cons e rest ih =>
    intro last done
    rw [dedupeGo]
    by_cases hkey : last.key ≠ e.key
    · rw [if_pos hkey]; exact ih e (done ++ [last])
    · rw [if_neg hkey]
      by_cases hcond : last.value ≠ e.value ∨ rd = false
      · rw [if_pos hcond]; exact .inr ⟨e.key, rfl⟩
      · rw [if_neg hcond]; exact ih _ done

/-! ### Decomposition lemmas for the comment matcher -/

theorem orElse_none' (f : Unit → Option α) : Option.orElse none f = f () := rfl

theorem orElse_some' (a : α) (f : Unit → Option α) : Option.orElse (some a) f = some a := rfl

theorem qlitTail_nil : qlitTail [] = none := by rw [qlitTail.eq_def]

theorem blockTail_nil : blockTail [] = none := by rw [blockTail.eq_def]

theorem qlitTail_one (c : Char) :
    qlitTail [c] =
      (if c ≠ '\'' ∧ c ≠ '\\' then (qlitTail []).map fun p => (c :: p.1, p.2)
       else if c = '\\' then none
       else none).orElse fun _ => if c = '\'' then some ([c], []) else none := by
  rw [qlitTail.eq_def]

theorem qlitTail_cons2 (c d : Char) (rest2 : List Char) :
    qlitTail (c :: d :: rest2) =
      (if c ≠ '\'' ∧ c ≠ '\\' then (qlitTail (d :: rest2)).map fun p => (c :: p.1, p.2)
       else if c = '\\' then (qlitTail rest2).map fun p => (c :: d :: p.1, p.2)
       else none).orElse fun _ => if c = '\'' then some ([c], d :: rest2) else none := by
  rw [qlitTail.eq_def]

theorem blockTail_one (c : Char) :
    blockTail [c] =
      (if c ≠ '*' then (blockTail []).map fun p => (c :: p.1, p.2)
       else if ([] : List Char).head? ≠ some '/' then (blockTail []).map fun p => (c :: p.1, p.2)
       else none).orElse fun _ => if c = '*' then none else none := by
  rw [blockTail.eq_def]

theorem blockTail_cons2 (c d : Char) (rest2 : List Char) :
    blockTail (c :: d :: rest2) =
      (if c ≠ '*' then (blockTail (d :: rest2)).map fun p => (c :: p.1, p.2)
       else if (d :: rest2).head? ≠ some '/' then (blockTail (d :: rest2)).map fun p => (c :: p.1, p.2)
       else none).orElse fun _ =>
        if c = '*' then if d = '/' then some (['*', '/'], rest2) else none else none := by
  rw [blockTail.eq_def]

theorem commentAlt1_cons (c : Char) (rest : List Char) :
    commentAlt1 (c :: rest) =
      if c = '\'' then (qlitTail rest).map fun p => ('\'' :: p.1, p.2) else none := rfl

theorem commentAlt2_cons2 (c d : Char) (rest : List Char) :
    commentAlt2 (c :: d :: rest) =
      if c = '/' ∧ d = '/' then
        some ('/' :: '/' :: rest.takeWhile (· ≠ '\n'), rest.dropWhile (· ≠ '\n'))
      else none := rfl

theorem commentAlt3_cons2 (c d : Char) (rest : List Char) :
    commentAlt3 (c :: d :: rest) =
      if c = '/' ∧ d = '*' then (blockTail rest).map fun p => ('/' :: '*' :: p.1, p.2)
      else none := rfl

theorem qlitTail_append : ∀ (n : Nat) (s txt rest : List Char), s.length ≤ n →
    qlitTail s = some (txt, rest) → s = txt ++ rest := by
  intro n
  induction n with
  | zero =>
    intro s txt rest hlen h
    cases s with
    | nil => cases h
    | cons c cs => simp at hlen
  | succ n ih =>
    intro s txt rest hlen h
    cases s with
    | nil => cases h
    | cons c cs =>
      cases cs with
      | nil =>
        rw [qlitTail_one, qlitTail_nil] at h
        by_cases h1 : c ≠ '\'' ∧ c ≠ '\\'
        · rw [if_pos h1] at h
          simp only [Option.map_none', orElse_none'] at h
          rw [if_neg h1.1] at h; cases h
        · rw [if_neg h1] at h
          by_cases h2 : c = '\\'
          · rw [if_pos h2] at h
            rw [orElse_none'] at h
            rw [if_neg (by rw [h2]; decide)] at h; cases h
          · rw [if_neg h2, orElse_none'] at h
            have hc : c = '\'' := by
              rcases not_and_or.mp h1 with hc | hc
              · exact not_not.mp hc
              · exact absurd (not_not.mp hc) h2
            rw [if_pos hc] at h
            cases h
            simp
      | cons d rest2 =>
        rw [qlitTail_cons2] at h
        by_cases h1 : c ≠ '\'' ∧ c ≠ '\\'
        · rw [if_pos h1] at h
          rcases hq : qlitTail (d :: rest2) with _ | ⟨m, r⟩
          · rw [hq] at h
            simp only [Option.map_none', orElse_none'] at h
            rw [if_neg h1.1] at h; cases h
          · rw [hq] at h
            simp only [Option.map_some', orElse_some'] at h
            cases h
            have hd := ih (d :: rest2) m _ (by simp at hlen ⊢; omega) hq
            simp [hd]
        · rw [if_neg h1] at h
          by_cases h2 : c = '\\'
          · rw [if_pos h2] at h
            rcases hq : qlitTail rest2 with _ | ⟨m, r⟩
            · rw [hq] at h
              simp only [Option.map_none', orElse_none'] at h
              rw [if_neg (by rw [h2]; decide)] at h; cases h
            · rw [hq] at h
              simp only [Option.map_some', orElse_some'] at h
              cases h
              have hd := ih rest2 m _ (by simp at hlen ⊢; omega) hq
              simp [hd]
          · rw [if_neg h2, orElse_none'] at h
            have hc : c = '\'' := by
              rcases not_and_or.mp h1 with hc | hc
              · exact not_not.mp hc
              · exact absurd (not_not.mp hc) h2
            rw [if_pos hc] at h
            cases h
            simp

theorem blockTail_append : ∀ (n : Nat) (s txt rest : List Char), s.length ≤ n →
    blockTail s = some (txt, rest) → s = txt ++ rest := by
  intro n
  induction n with
  | zero =>
    intro s txt rest hlen h
    cases s with
    | nil => cases h
    | cons c cs => simp at hlen
  | succ n ih =>
    intro s txt rest hlen h
    cases s with
    | nil => cases h
    | cons c cs =>
      cases cs with
      | nil =>
        rw [blockTail_one, blockTail_nil] at h
        by_cases h1 : c ≠ '*'
        · rw [if_pos h1] at h
          simp only [Option.map_none', orElse_none'] at h
          rw [if_neg h1] at h; cases h
        · rw [if_neg h1] at h
          rw [if_pos (by decide)] at h
          simp only [Option.map_none', orElse_none'] at h
          rw [if_pos (not_not.mp h1)] at h; cases h
      | cons d rest2 =>
        rw [blockTail_cons2] at h
        by_cases h1 : c ≠ '*'
        · rw [if_pos h1] at h
          rcases hq : blockTail (d :: rest2) with _ | ⟨m, r⟩
          · rw [hq] at h
            simp only [Option.map_none', orElse_none'] at h
            rw [if_neg h1] at h; cases h
          · rw [hq] at h
            simp only [Option.map_some', orElse_some'] at h
            cases h
            have hd := ih (d :: rest2) m _ (by simp at hlen ⊢; omega) hq
            simp [hd]
        · rw [if_neg h1] at h
          push_neg at h1
          by_cases h2 : (d :: rest2).head? ≠ some '/'
          · rw [if_pos h2] at h
            have hd2 : ¬ d = '/' := by simpa using h2
            rcases hq : blockTail (d :: rest2) with _ | ⟨m, r⟩
            · rw [hq] at h
              simp only [Option.map_none', orElse_none'] at h
              rw [if_pos h1, if_neg hd2] at h; cases h
            · rw [hq] at h
              simp only [Option.map_some', orElse_some'] at h
              cases h
              have hd := ih (d :: rest2) m _ (by simp at hlen ⊢; omega) hq
              simp [hd]
          · rw [if_neg h2, orElse_none', if_pos h1] at h
            push_neg at h2
            have hd : d = '/' := by simpa using h2
            rw [if_pos hd] at h
            cases h
            simp [h1, hd]

/-- A successful comment match splits the input exactly, is non-empty, and
starts with a quote or a slash. -/
theorem commentMatch_spec (s txt rest : List Char)
    (h : commentMatch s = some (txt, rest)) :
    s = txt ++ rest ∧ ∃ c t, txt = c :: t ∧ (c = '\'' ∨ c = '/') := by
  rw [commentMatch] at h
  rcases h1 : commentAlt1 s with _ | ⟨t1, r1⟩
  · rw [h1, orElse_none'] at h
    rcases h2 : commentAlt2 s with _ | ⟨t2, r2⟩
    · rw [h2, orElse_none'] at h
      -- third alternative
      cases s with
      | nil => cases h
      | cons c cs =>
        cases cs with
        | nil => cases h
        | cons d rest2 =>
          rw [commentAlt3_cons2] at h
          by_cases hcd : c = '/' ∧ d = '*'
          · rw [if_pos hcd] at h
            rcases hb : blockTail rest2 with _ | ⟨m, r⟩
            · rw [hb] at h; cases h
            · rw [hb] at h
              simp only [Option.map_some', Option.some.injEq] at h
              cases h
              have hd := blockTail_append rest2.length rest2 m _ le_rfl hb
              exact ⟨by simp [hcd.1, hcd.2, hd], '/', '*' :: m, rfl, .inr rfl⟩
          · rw [if_neg hcd] at h; cases h
    · rw [h2, orElse_some'] at h
      cases h
      cases s with
      | nil => cases h2
      | cons c cs =>
        cases cs with
        | nil => cases h2
        | cons d rest2 =>
          rw [commentAlt2_cons2] at h2
          by_cases hcd : c = '/' ∧ d = '/'
          · rw [if_pos hcd] at h2
            cases h2
            refine ⟨?_, '/', '/' :: rest2.takeWhile (· ≠ '\n'), rfl, .inr rfl⟩
            simp [hcd.1, hcd.2, List.takeWhile_append_dropWhile]
          · rw [if_neg hcd] at h2; cases h2
  · rw [h1, orElse_some'] at h
    cases h
    cases s with
    | nil => cases h1
    | cons c cs =>
      rw [commentAlt1_cons] at h1
      by_cases hc : c = '\''
      · rw [if_pos hc] at h1
        rcases hq : qlitTail cs with _ | ⟨m, r⟩
        · rw [hq] at h1; cases h1
        · rw [hq] at h1
          simp only [Option.map_some', Option.some.injEq] at h1
          cases h1
          have hd := qlitTail_append cs.length cs m _ le_rfl hq
          exact ⟨by simp [hc, hd], '\'', m, rfl, .inl rfl⟩
      · rw [if_neg hc] at h1; cases h1

/-! ### The CRLF `replace` is a no-op after the CRLF check -/

theorem containsCRLF_tail (c : Char) (t : List Char)
    (h : containsCRLF (c :: t) = false) : containsCRLF t = false := by
  cases t with
  | nil => rfl
  | cons d t2 =>
    rw [containsCRLF] at h
    exact (Bool.or_eq_false_iff.mp h).2

theorem pyReplaceAllGo_crlf_noop : ∀ (fuel : Nat) (s : List Char),
    containsCRLF s = false → pyReplaceAllGo ['\r', '\n'] ['\n'] fuel s = s := by
  intro fuel
  induction fuel with
  | zero =>
    intro s _
    cases s with
    | nil => rfl
    | cons c t => rfl
  | succ n ih =>
    intro s h
    cases s with
    | nil => rfl
    | cons c t =>
      rw [pyReplaceAllGo]
      rw [if_neg ?hpre]
      · rw [ih t (containsCRLF_tail c t h)]
      case hpre =>
        rintro ⟨-, hpre⟩
        cases t with
        | nil => simp [List.isPrefixOf] at hpre
        | cons d t2 =>
          obtain ⟨hc, hd⟩ : '\r' = c ∧ '\n' = d := by
            simpa [List.isPrefixOf] using hpre
          rw [containsCRLF, ← hc, ← hd] at h
          simp at h

theorem pyReplaceAll_crlf_noop (s : List Char) (h : containsCRLF s = false) :
    pyReplaceAll ['\r', '\n'] ['\n'] s = s :=
  pyReplaceAllGo_crlf_noop s.length s h

/-- Unfolding of `normalizeEntries` when the sorted list is non-empty. -/
theorem normalizeEntries_cons (entries : List DotStringsEntry) (rd sc : Bool)
    (hh : DotStringsEntry) (tt : List DotStringsEntry)
    (hms : entries.mergeSort entryLe = hh :: tt) :
    normalizeEntries entries rd sc =
      (dedupeGo rd hh [] tt).map fun ds =>
        if sc then ds.map fun e => { e with comments := sortedComments e.comments }
        else ds := by
  rw [normalizeEntries, hms]

/-- `Except.map` neither creates nor masks the duplicate-key error. -/
theorem map_error_dup_iff {f : List DotStringsEntry → List DotStringsEntry}
    {x : Except NormError (List DotStringsEntry)} :
    (∃ k, x.map f = .error (.duplicateKey k)) ↔
      (∃ k, x = .error (.duplicateKey k)) := by
  cases x <;> simp [Except.map]

/-- Claim C7: normalization raises the duplicate-key error exactly for
entry lists in which two parsed entries share a key while their values
differ or duplicate removal is disabled; duplicates with equal values,
with duplicate removal enabled, are merged — their comments combined —
rather than an error. -/
theorem c7_duplicate_key_iff (entries : List DotStringsEntry) (rd sc : Bool) :
    ((∃ k, normalizeEntries entries rd sc = .error (.duplicateKey k)) ↔
      ¬ entries.Pairwise (entryQ rd)) ∧
    (entries ≠ [] → entries.Pairwise (entryQ rd) →
      ∃ out, normalizeEntries entries rd sc = .ok out) ∧
    (∀ k v c1 c2 l1 l2,
      normalizeEntries [⟨k, v, c1, l1⟩, ⟨k, v, c2, l2⟩] true false =
          .ok [⟨k, v, c1 ++ c2, l1⟩] ∨
        normalizeEntries [⟨k, v, c1, l1⟩, ⟨k, v, c2, l2⟩] true false =
          .ok [⟨k, v, c2 ++ c1, l2⟩]) := by
  have hperm : List.Perm (entries.mergeSort entryLe) entries :=
    List.mergeSort_perm entries entryLe
  have main : (∃ k, normalizeEntries entries rd sc = .error (.duplicateKey k)) ↔
      ¬ entries.Pairwise (entryQ rd) := by
    cases hms : entries.mergeSort entryLe with
    | nil =>
      have hnil : entries = [] := by
        rw [hms] at hperm; exact hperm.symm.eq_nil
      rw [normalizeEntries, hms, hnil]
      constructor
      · rintro ⟨k, hk⟩; cases hk
      · intro h; exact absurd List.Pairwise.nil h
    | cons hh tt =>
      have hkeysorted : List.Pairwise (fun a b => strLt b.key a.key = false) (hh :: tt) := by
        have hs := List.sorted_mergeSort entryLe_trans entryLe_total entries
        rw [hms] at hs
        exact hs.imp fun hab => entryLe_key _ _ hab
      have hiff := dedupeGo_dup_iff rd tt hh [] hkeysorted
      have hpw : List.Pairwise (entryQ rd) (entries.mergeSort entryLe) ↔
          List.Pairwise (entryQ rd) entries :=
        hperm.pairwise_iff fun h => entryQ_symm rd h
      rw [hms] at hpw
      rw [normalizeEntries_cons entries rd sc hh tt hms, map_error_dup_iff]
      rcases dedupeGo_shape rd tt hh [] with ⟨l, hl⟩ | ⟨k0, hk0⟩
      · rw [hl]
        constructor
        · rintro ⟨k, hk⟩; cases hk
        · intro hnp
          exfalso
          rcases hiff.mpr (fun hp => hnp (hpw.mp hp)) with ⟨k, hk⟩
          rw [hl] at hk; cases hk
      · rw [hk0]
        constructor
        · rintro ⟨k, hk⟩
          intro hp
          exact (hiff.mp ⟨k0, hk0⟩) (hpw.mpr hp)
        · intro _; exact ⟨k0, rfl⟩
  refine ⟨main, ?_, ?_⟩
  · intro hne hpw
    have hnd : ¬ ∃ k, normalizeEntries entries rd sc = .error (.duplicateKey k) :=
      fun hex => (main.mp hex) hpw
    cases hms : entries.mergeSort entryLe with
    | nil =>
      rw [hms] at hperm
      exact absurd hperm.symm.eq_nil hne
    | cons hh tt =>
      rcases dedupeGo_shape rd tt hh [] with ⟨l, hl⟩ | ⟨k0, hk0⟩
      · refine ⟨if sc then l.map fun e => { e with comments := sortedComments e.comments }
          else l, ?_⟩
        rw [normalizeEntries_cons entries rd sc hh tt hms, hl]
        rfl
      · exfalso
        apply hnd
        refine ⟨k0, ?_⟩
        rw [normalizeEntries_cons entries rd sc hh tt hms, hk0]
        rfl
  · intro k v c1 c2 l1 l2
    have hpair : List.mergeSort
        [(⟨k, v, c1, l1⟩ : DotStringsEntry), ⟨k, v, c2, l2⟩] entryLe =
        if entryLe ⟨k, v, c1, l1⟩ ⟨k, v, c2, l2⟩ then
          [(⟨k, v, c1, l1⟩ : DotStringsEntry), ⟨k, v, c2, l2⟩]
        else [(⟨k, v, c2, l2⟩ : DotStringsEntry), ⟨k, v, c1, l1⟩] := by
      simp [List.mergeSort, List.splitInTwo, List.splitAt, List.splitAt.go, List.merge]
    by_cases hle : entryLe ⟨k, v, c1, l1⟩ ⟨k, v, c2, l2⟩ = true
    · left
      rw [normalizeEntries_cons _ true false ⟨k, v, c1, l1⟩ [⟨k, v, c2, l2⟩]
        (by rw [hpair, if_pos hle])]
      rw [dedupeGo, if_neg (fun h => h rfl), if_neg (by simp), dedupeGo]
      rfl
    · right
      rw [Bool.not_eq_true] at hle
      rw [normalizeEntries_cons _ true false ⟨k, v, c2, l2⟩ [⟨k, v, c1, l1⟩]
        (by rw [hpair, if_neg (by rw [hle]; exact Bool.false_ne_true)])]
      rw [dedupeGo, if_neg (fun h => h rfl), if_neg (by simp), dedupeGo]
      rfl

/-- Witness for C7 at concrete entry lists: a conflicting duplicate raises
the duplicate-key error, conflict-free entries normalize successfully, and
an equal-value duplicate pair is merged with combined comments. -/
theorem c7_duplicate_key_iff_witness :
    (∃ k, normalizeEntries
        [⟨"a".toList, "1".toList, [], 0⟩, ⟨"a".toList, "2".toList, [], 1⟩] true true =
      .error (.duplicateKey k)) ∧
    (∃ out, normalizeEntries
        [⟨"a".toList, "1".toList, [], 0⟩, ⟨"b".toList, "2".toList, [], 1⟩] true true =
      .ok out) ∧
    (normalizeEntries
        [⟨"a".toList, "1".toList, ["x".toList], 0⟩, ⟨"a".toList, "1".toList, ["y".toList], 1⟩]
        true false =
        .ok [⟨"a".toList, "1".toList, ["x".toList, "y".toList], 0⟩] ∨
      normalizeEntries
        [⟨"a".toList, "1".toList, ["x".toList], 0⟩, ⟨"a".toList, "1".toList, ["y".toList], 1⟩]
        true false =
        .ok [⟨"a".toList, "1".toList, ["y".toList, "x".toList], 1⟩]) := by
  refine ⟨?_, ?_, ?_⟩
  · exact (c7_duplicate_key_iff
      [⟨"a".toList, "1".toList, [], 0⟩, ⟨"a".toList, "2".toList, [], 1⟩] true true).1.mpr
      (by intro h; have := (List.pairwise_cons.mp h).1 _ (List.mem_cons_self _ _) rfl
          exact absurd this.1 (by decide))
  · exact (c7_duplicate_key_iff
      [⟨"a".toList, "1".toList, [], 0⟩, ⟨"b".toList, "2".toList, [], 1⟩] true true).2.1
      (by decide)
      (by refine List.pairwise_cons.mpr ⟨?_, List.pairwise_singleton _ _⟩
          intro x hx hk
          rcases List.mem_cons.mp hx with hx | hx
          · subst hx; exact absurd hk (by decide)
          · simp at hx)
  · exact (c7_duplicate_key_iff [] true true).2.2
      "a".toList "1".toList ["x".toList] ["y".toList] 0 1

/-! ### Claim C9: whitespace- and comment-only inputs -/

theorem dropWhile_fix (p : Char → Bool) : ∀ l : List Char,
    (l.dropWhile p).dropWhile p = l.dropWhile p
  | [] => rfl
  | c :: t => by
    by_cases h : p c
    · rw [List.dropWhile_cons_of_pos h]; exact dropWhile_fix p t
    · rw [List.dropWhile_cons_of_neg h, List.dropWhile_cons_of_neg h]

theorem drop_takeWhile_length (p : Char → Bool) (l : List Char) :
    l.drop (l.takeWhile p).length = l.dropWhile p := by
  calc l.drop (l.takeWhile p).length
      = (l.takeWhile p ++ l.dropWhile p).drop (l.takeWhile p).length := by
        rw [List.takeWhile_append_dropWhile]
    _ = l.dropWhile p := List.drop_left _ _

/-- The input shape of claim C9: from the current position the input is a
sequence of whitespace characters and comment matches, each comment
matching the comment pattern at its position in the full remaining
input. -/
inductive WsComments : List Char → Prop
  | nil : WsComments []
  | ws (c : Char) (rest : List Char) : isPyWs c = true → WsComments rest →
      WsComments (c :: rest)
  | comment (txt rest : List Char) : commentMatch (txt ++ rest) = some (txt, rest) →
      WsComments rest → WsComments (txt ++ rest)

theorem WsComments.dropWhile_ws {s : List Char} (h : WsComments s) :
    WsComments (s.dropWhile isPyWs) := by
  induction h with
  | nil => exact .nil
  | ws c rest hc _ ih => rw [List.dropWhile_cons_of_pos hc]; exact ih
  | comment txt rest hm hrest _ =>
    obtain ⟨-, c, t, htxt, hc⟩ := commentMatch_spec _ _ _ hm
    subst htxt
    rw [List.cons_append, List.dropWhile_cons_of_neg
      (by rcases hc with hc | hc <;> rw [hc] <;> decide)]
    exact .comment (c :: t) rest hm hrest

theorem WsComments.head_comment {s : List Char} (h : WsComments s) (hne : s ≠ [])
    (hfix : s.dropWhile isPyWs = s) :
    ∃ txt rest, commentMatch s = some (txt, rest) ∧ WsComments rest ∧ txt ≠ [] := by
  cases h with
  | nil => exact absurd rfl hne
  | ws c rest hc hrest =>
    rw [List.dropWhile_cons_of_pos hc] at hfix
    have hlen := congrArg List.length hfix
    have hle : (rest.dropWhile isPyWs).length ≤ rest.length :=
      (List.dropWhile_sublist isPyWs).length_le
    simp at hlen
    omega
  | comment txt rest hm hrest =>
    obtain ⟨-, c, t, htxt, -⟩ := commentMatch_spec _ _ _ hm
    exact ⟨txt, rest, hm, hrest, by subst htxt; simp⟩

theorem commentLoop_succ_none (n : Nat) (sc : Scanner) (acc : List (List Char))
    (hm : patMatch .comment (sc.string.drop sc.offset) = none) :
    commentLoop (n + 1) sc acc = (sc, acc) := by
  rw [commentLoop, scan_eq_none sc .comment hm]

theorem commentLoop_succ_some (n : Nat) (sc : Scanner) (acc : List (List Char))
    (txt rest : List Char)
    (hm : patMatch .comment (sc.string.drop sc.offset) = some (txt, rest)) :
    commentLoop (n + 1) sc acc =
      commentLoop n
        ((Scanner.mk sc.string (sc.offset + txt.length) (sc.line + txt.count '\n')).scan
          .whitespace).2
        (acc ++ processComment txt) := by
  rw [commentLoop, scan_eq_some sc .comment txt rest hm]

theorem scan_ws_eq (sc : Scanner) :
    sc.scan .whitespace =
      (some ((sc.string.drop sc.offset).takeWhile isPyWs),
        Scanner.mk sc.string
          (sc.offset + ((sc.string.drop sc.offset).takeWhile isPyWs).length)
          (sc.line + ((sc.string.drop sc.offset).takeWhile isPyWs).count '\n')) :=
  scan_eq_some sc .whitespace _ _ rfl

/-- Starting anywhere in a whitespace-and-comments region whose head is not
whitespace, the comment loop consumes the entire rest of the input. -/
theorem commentLoop_exhausts : ∀ (fuel : Nat) (sc : Scanner) (acc : List (List Char)),
    sc.string.length - sc.offset < fuel →
    sc.offset ≤ sc.string.length →
    WsComments (sc.string.drop sc.offset) →
    (sc.string.drop sc.offset).dropWhile isPyWs = sc.string.drop sc.offset →
    (commentLoop fuel sc acc).1.offset = sc.string.length ∧
      (commentLoop fuel sc acc).1.string = sc.string := by
  intro fuel
  induction fuel with
  | zero => intro sc acc hf _ _ _; omega
  | succ n ih =>
    intro sc acc hf hle hws hfix
    by_cases hnil : sc.string.drop sc.offset = []
    · have hoff : sc.offset = sc.string.length := by
        have hdl := congrArg List.length hnil
        rw [List.length_drop] at hdl
        simp at hdl
        omega
      rw [commentLoop_succ_none n sc acc (by rw [hnil]; rfl)]
      exact ⟨hoff, rfl⟩
    · obtain ⟨txt, rest, hm, hrest, htne⟩ := hws.head_comment hnil hfix
      obtain ⟨hsplit, -⟩ := commentMatch_spec _ _ _ hm
      rw [commentLoop_succ_some n sc acc txt rest hm]
      rw [scan_ws_eq]
      have hdrop1 : sc.string.drop (sc.offset + txt.length) = rest := by
        rw [← List.drop_drop, hsplit, List.drop_left]
      have htlen : txt.length + rest.length = sc.string.length - sc.offset := by
        have := congrArg List.length hsplit
        rw [List.length_drop, List.length_append] at this
        omega
      have htpos : 0 < txt.length := List.length_pos.mpr htne
      have hdrop2 : sc.string.drop
          (sc.offset + txt.length + (rest.takeWhile isPyWs).length) =
          rest.dropWhile isPyWs := by
        rw [← List.drop_drop, hdrop1, drop_takeWhile_length]
      have htkle : (rest.takeWhile isPyWs).length ≤ rest.length :=
        (List.takeWhile_sublist isPyWs).length_le
      rw [hdrop1]
      have hres := ih (Scanner.mk sc.string
          (sc.offset + txt.length + (rest.takeWhile isPyWs).length)
          ((sc.line + txt.count '\n') + (rest.takeWhile isPyWs).count '\n'))
        (acc ++ processComment txt)
        (by simp only; omega)
        (by simp only; omega)
        (by simp only [hdrop2]; exact hrest.dropWhile_ws)
        (by simp only [hdrop2]; exact dropWhile_fix _ _)
      exact hres

theorem loads_eq_loop (contents : List Char) (h : containsCRLF contents = false) :
    loads contents = loadsLoop (contents.length + 1) (Scanner.mk contents 0 0) [] := by
  rw [loads, if_neg (by rw [h]; exact Bool.false_ne_true),
    pyReplaceAll_crlf_noop contents h]

theorem loadsLoop_done (n : Nat) (sc : Scanner) (acc : List DotStringsEntry)
    (h : ¬ sc.has_more = true) : loadsLoop (n + 1) sc acc = .ok acc := by
  rw [loadsLoop, if_neg h]

/-- Counterexample to claim C9 as stated: the input `// a/*b\nc*/` is a
concatenation of two standalone comment matches (`// a` and the two-line
block `/*b\nc*/`), yet `loads` raises the expected-entry error at offset 8
because the `//` comment swallows the block comment's opening up to the
end of its line. -/
theorem c9_counterexample :
    (∃ p1 p2, "// a/*b\nc*/".toList = p1 ++ p2 ∧
      commentMatch p1 = some (p1, []) ∧ commentMatch p2 = some (p2, [])) ∧
    loads "// a/*b\nc*/".toList = .error (.expectedEntry 8) := by
  constructor
  · exact ⟨"// a".toList, "/*b\nc*/".toList, by decide, by decide, by decide⟩
  · decide

/-- Claim C9, amended: for every input consisting of whitespace and
comments — each comment matching the comment pattern at its position in
the remaining input, which in particular makes every `//` comment extend
to the end of its line — and containing no CRLF sequence, `loads` succeeds
and returns the empty list; trailing comments are silently discarded. -/
theorem c9_ws_comments_parse_empty (s : List Char) (hws : WsComments s)
    (hcrlf : containsCRLF s = false) : loads s = .ok [] := by
  rw [loads_eq_loop s hcrlf]
  by_cases hmore : (Scanner.mk s 0 0).has_more = true
  · have hdrop0 : (Scanner.mk s 0 0).string.drop (Scanner.mk s 0 0).offset = s :=
      List.drop_zero s
    have hsc1 : ((Scanner.mk s 0 0).scan .whitespace).2 =
        Scanner.mk s (0 + (s.takeWhile isPyWs).length)
          (0 + (s.takeWhile isPyWs).count '\n') := by
      rw [scan_ws_eq]
      simp only [List.drop_zero]
    have hsub : s.drop (0 + (s.takeWhile isPyWs).length) = s.dropWhile isPyWs := by
      rw [Nat.zero_add, drop_takeWhile_length]
    have hexh := commentLoop_exhausts (s.length + 1)
      (Scanner.mk s (0 + (s.takeWhile isPyWs).length)
        (0 + (s.takeWhile isPyWs).count '\n')) []
      (by simp only; omega)
      (by simp only
          have hlen : (s.takeWhile isPyWs).length ≤ s.length :=
            (List.takeWhile_sublist isPyWs).length_le
          omega)
      (by simp only [hsub]; exact hws.dropWhile_ws)
      (by simp only [hsub]; exact dropWhile_fix _ _)
    set P := commentLoop (s.length + 1)
      (Scanner.mk s (0 + (s.takeWhile isPyWs).length)
        (0 + (s.takeWhile isPyWs).count '\n')) [] with hP
    have hend : P.1.string.drop P.1.offset = [] := by
      rw [hexh.1, hexh.2]
      exact List.drop_length _
    rw [loadsLoop_no_match s.length (Scanner.mk s 0 0) [] hmore P.1 P.2
      (by rw [hsc1])
      (by rw [hend]; rfl)
      (by rw [hend]; rfl)]
    rw [if_neg (by rw [Scanner.has_more, hexh.1, hexh.2]; simp)]
  · exact loadsLoop_done s.length (Scanner.mk s 0 0) [] hmore


/-- Witness for the amended C9 at a concrete whitespace-and-comments
input. -/
theorem c9_ws_comments_parse_empty_witness :
    loads " /* c */ ".toList = .ok [] :=
  c9_ws_comments_parse_empty " /* c */ ".toList
    (by
      show WsComments (' ' :: ("/* c */".toList ++ [' ']))
      refine WsComments.ws _ _ (by decide) ?_
      refine WsComments.comment "/* c */".toList [' '] (by decide) ?_
      exact WsComments.ws ' ' [] (by decide) WsComments.nil)
    (by decide)

/-! ### Claim C3: backtracking spec lemmas for the greedy and lazy stars -/

theorem greedyDesc_nil (f : List Char → List Char → Option α) (post : List Char) :
    greedyDesc f [] post = f [] post := by
  rw [greedyDesc.eq_def]

theorem greedyDesc_cons (f : List Char → List Char → Option α) (c : Char)
    (pr post : List Char) :
    greedyDesc f (c :: pr) post =
      match f (c :: pr).reverse post with
      | some r => some r
      | none => greedyDesc f pr (c :: post) := by
  rw [greedyDesc.eq_def]

theorem lazyAsc_nil (f : List Char → List Char → Option α) (preRev post : List Char) :
    lazyAsc f preRev [] post = f preRev.reverse post := by
  rw [lazyAsc.eq_def]

theorem lazyAsc_cons (f : List Char → List Char → Option α) (preRev : List Char)
    (c : Char) (run2 post : List Char) :
    lazyAsc f preRev (c :: run2) post =
      match f preRev.reverse (c :: run2 ++ post) with
      | some r => some r
      | none => lazyAsc f (c :: preRev) run2 post := by
  rw [lazyAsc.eq_def]

/-- A successful greedy-star search comes from one candidate split of the
run: a prefix taken by the star, the corresponding suffix handed to the
continuation. -/
theorem greedyDesc_exists (f : List Char → List Char → Option α) :
    ∀ (preRev post : List Char) (r : α), greedyDesc f preRev post = some r →
      ∃ u t, preRev.reverse = u ++ t ∧ f u (t ++ post) = some r := by
  intro preRev
  induction preRev with
  | nil =>
    intro post r h
    rw [greedyDesc_nil] at h
    exact ⟨[], [], by simp, by simpa using h⟩
  | cons c pr ih =>
    intro post r h
    rw [greedyDesc_cons] at h
    rcases hf : f (c :: pr).reverse post with _ | r2
    · rw [hf] at h
      change greedyDesc f pr (c :: post) = some r at h
      obtain ⟨u, t, hsplit, hfu⟩ := ih (c :: post) r h
      refine ⟨u, t ++ [c], ?_, ?_⟩
      · rw [List.reverse_cons, hsplit, List.append_assoc]
      · rw [List.append_assoc, List.singleton_append]
        exact hfu
    · rw [hf] at h
      change some r2 = some r at h
      injection h with h2
      subst h2
      exact ⟨(c :: pr).reverse, [], by simp, by simpa using hf⟩

/-- A successful lazy-star search likewise comes from one candidate split
of the run. -/
theorem lazyAsc_exists (f : List Char → List Char → Option α) :
    ∀ (run preRev post : List Char) (r : α), lazyAsc f preRev run post = some r →
      ∃ u t, run = u ++ t ∧ f (preRev.reverse ++ u) (t ++ post) = some r := by
  intro run
  induction run with
  | nil =>
    intro preRev post r h
    rw [lazyAsc_nil] at h
    exact ⟨[], [], by simp, by simpa using h⟩
  | cons c run2 ih =>
    intro preRev post r h
    rw [lazyAsc_cons] at h
    rcases hf : f preRev.reverse (c :: run2 ++ post) with _ | r2
    · rw [hf] at h
      change lazyAsc f (c :: preRev) run2 post = some r at h
      obtain ⟨u, t, hsplit, hfu⟩ := ih (c :: preRev) post r h
      refine ⟨c :: u, t, by rw [hsplit, List.cons_append], ?_⟩
      rw [List.reverse_cons, List.append_assoc, List.singleton_append] at hfu
      exact hfu
    · rw [hf] at h
      change some r2 = some r at h
      injection h with h2
      subst h2
      exact ⟨[], c :: run2, rfl, by simpa using hf⟩

/-- If every candidate split fails, the greedy-star search fails. -/
theorem greedyDesc_none (f : List Char → List Char → Option α) :
    ∀ (preRev post : List Char),
      (∀ u t, preRev.reverse = u ++ t → f u (t ++ post) = none) →
      greedyDesc f preRev post = none := by
  intro preRev
  induction preRev with
  | nil =>
    intro post h
    have h0 := h [] [] (by simp)
    rw [List.nil_append] at h0
    rw [greedyDesc_nil, h0]
  | cons c pr ih =>
    intro post h
    have h0 := h (c :: pr).reverse [] (by simp)
    rw [List.nil_append] at h0
    rw [greedyDesc_cons, h0]
    exact ih (c :: post) fun u t hsplit => by
      have h2 := h u (t ++ [c]) (by rw [List.reverse_cons, hsplit, List.append_assoc])
      rwa [List.append_assoc, List.singleton_append] at h2

/-- The greedy-star search returns the successful candidate with the
longest star extent: if one candidate succeeds and every strictly longer
extent (strictly shorter remainder) fails, that candidate's result is the
result of the search. -/
theorem greedyDesc_found (f : List Char → List Char → Option α) :
    ∀ (preRev post u t : List Char) (r : α),
      preRev.reverse = u ++ t → f u (t ++ post) = some r →
      (∀ u2 t2, preRev.reverse = u2 ++ t2 → t2.length < t.length →
        f u2 (t2 ++ post) = none) →
      greedyDesc f preRev post = some r := by
  intro preRev
  induction preRev with
  | nil =>
    intro post u t r hsplit hf _
    rw [List.reverse_nil] at hsplit
    obtain ⟨hu, ht⟩ := List.append_eq_nil.mp hsplit.symm
    subst hu; subst ht
    rw [List.nil_append] at hf
    rw [greedyDesc_nil, hf]
  | cons c pr ih =>
    intro post u t r hsplit hf hfail
    cases t with
    | nil =>
      rw [List.append_nil] at hsplit
      subst hsplit
      rw [List.nil_append] at hf
      rw [greedyDesc_cons, hf]
    | cons t0 ts =>
      have h0 := hfail (c :: pr).reverse [] (by simp) (by simp)
      rw [List.nil_append] at h0
      rw [greedyDesc_cons, h0]
      have heq : pr.reverse ++ [c] =
          (u ++ (t0 :: ts).dropLast) ++ [(t0 :: ts).getLast (by simp)] := by
        calc pr.reverse ++ [c] = (c :: pr).reverse := (List.reverse_cons c pr).symm
        _ = u ++ (t0 :: ts) := hsplit
        _ = u ++ ((t0 :: ts).dropLast ++ [(t0 :: ts).getLast (by simp)]) := by
            rw [List.dropLast_append_getLast]
        _ = (u ++ (t0 :: ts).dropLast) ++ [(t0 :: ts).getLast (by simp)] :=
            (List.append_assoc u _ _).symm
      obtain ⟨hpr, hc⟩ := List.append_inj' heq (by simp)
      have hcl : c = (t0 :: ts).getLast (by simp) := by
        have h1 := congrArg List.head? hc
        simpa using h1
      refine ih (c :: post) u (t0 :: ts).dropLast r hpr ?_ ?_
      · have hre : (t0 :: ts) ++ post = (t0 :: ts).dropLast ++ (c :: post) := by
          conv_lhs => rw [← List.dropLast_append_getLast (by simp : t0 :: ts ≠ [])]
          rw [List.append_assoc, List.singleton_append, ← hcl]
        rw [hre] at hf
        exact hf
      · intro u2 t2 hsplit2 hlt2
        have h2 := hfail u2 (t2 ++ [c])
          (by rw [List.reverse_cons, hsplit2, List.append_assoc])
          (by simp only [List.length_append, List.length_cons, List.length_nil]
              have := List.length_dropLast (t0 :: ts)
              simp only [List.length_cons] at this
              omega)
        rwa [List.append_assoc, List.singleton_append] at h2

/-- A fragment of the maximal single-line run contains no newline. -/
theorem no_nl_of_run_split (p : Char → Bool) (s1 u t : List Char)
    (hp : p '\n' = false) (hsplit : s1.takeWhile p = u ++ t) : '\n' ∉ u := by
  intro hm
  have h1 : '\n' ∈ s1.takeWhile p := by
    rw [hsplit]; exact List.mem_append_left t hm
  have h2 := List.mem_takeWhile_imp h1
  rw [hp] at h2
  cases h2

theorem searchBy_cons (m : List Char → Option α) (c : Char) (t : List Char) :
    searchBy m (c :: t) =
      match m (c :: t) with
      | some r => some r
      | none => searchBy m t := by
  rw [searchBy.eq_def]

/-- A successful search comes from a successful anchored match at some
position. -/
theorem searchBy_some (m : List Char → Option α) :
    ∀ (s : List Char) (r : α), searchBy m s = some r → ∃ s2, m s2 = some r
  | [], r, h => ⟨[], h⟩
  | c :: t, r, h => by
    rw [searchBy_cons] at h
    rcases hm : m (c :: t) with _ | r2
    · rw [hm] at h
      change searchBy m t = some r at h
      exact searchBy_some m t r h
    · rw [hm] at h
      change some r2 = some r at h
      injection h with h2
      subst h2
      exact ⟨c :: t, hm⟩

/-- The value group of a successful `"(.*)" *;` match is newline-free. -/
theorem valueTail_g2 (s : List Char) (q : List Char × List Char × List Char)
    (h : valueTail s = some q) : '\n' ∉ q.2.1 := by
  cases s with
  | nil => exact Option.noConfusion h
  | cons c s1 =>
    simp only [valueTail] at h
    by_cases hc : c = '"'
    · rw [if_pos hc] at h
      obtain ⟨u, t, hsplit, hfu⟩ := greedyDesc_exists _ _ _ _ h
      rw [List.reverse_reverse] at hsplit
      rcases ht : t ++ s1.dropWhile (· ≠ '\n') with _ | ⟨d, p2⟩
      · rw [ht] at hfu
        exact Option.noConfusion hfu
      · rw [ht] at hfu
        dsimp only at hfu
        by_cases hd : d = '"'
        · rw [if_pos hd] at hfu
          rcases hsp : spaceSemiTail p2 with _ | q2
          · rw [hsp] at hfu
            exact Option.noConfusion hfu
          · rw [hsp] at hfu
            change some ('"' :: u ++ '"' :: q2.1, u, q2.2) = some q at hfu
            injection hfu with h2
            subst h2
            exact no_nl_of_run_split (· ≠ '\n') s1 u t (by simp) hsplit
        · rw [if_neg hd] at hfu
          exact Option.noConfusion hfu
    · rw [if_neg hc] at h
      exact Option.noConfusion h

/-- The value group of a successful `\s*=\s*"(.*)" *;` match is
newline-free. -/
theorem eqValTail_g2 (s : List Char) (q : List Char × List Char × List Char)
    (h : eqValTail s = some q) : '\n' ∉ q.2.1 := by
  rw [eqValTail] at h
  obtain ⟨u1, t1, hsplit1, hf1⟩ := greedyDesc_exists _ _ _ _ h
  rcases ht1 : t1 ++ s.dropWhile isPyWs with _ | ⟨c, p1⟩
  · rw [ht1] at hf1
    exact Option.noConfusion hf1
  · rw [ht1] at hf1
    dsimp only at hf1
    by_cases hc : c = '='
    · rw [if_pos hc] at hf1
      obtain ⟨u2, t2, hsplit2, hf2⟩ := greedyDesc_exists _ _ _ _ hf1
      rcases hv : valueTail (t2 ++ p1.dropWhile isPyWs) with _ | q3
      · rw [hv] at hf2
        exact Option.noConfusion hf2
      · rw [hv] at hf2
        change some (u1 ++ '=' :: u2 ++ q3.1, q3.2.1, q3.2.2) = some q at hf2
        injection hf2 with h2
        subst h2
        exact valueTail_g2 _ q3 hv
    · rw [if_neg hc] at hf1
      exact Option.noConfusion hf1

/-- Both groups of a successful quoted-entry match are newline-free. -/
theorem entryMatch_groups (s : List Char)
    (r : List Char × List Char × List Char × List Char)
    (h : entryMatch s = some r) : '\n' ∉ r.2.1 ∧ '\n' ∉ r.2.2.1 := by
  cases s with
  | nil => exact Option.noConfusion h
  | cons c s1 =>
    simp only [entryMatch] at h
    by_cases hc : c = '"'
    · rw [if_pos hc] at h
      obtain ⟨u, t, hsplit, hfu⟩ := greedyDesc_exists _ _ _ _ h
      rw [List.reverse_reverse] at hsplit
      rcases ht : t ++ s1.dropWhile (· ≠ '\n') with _ | ⟨d, p1⟩
      · rw [ht] at hfu
        exact Option.noConfusion hfu
      · rw [ht] at hfu
        dsimp only at hfu
        by_cases hd : d = '"'
        · rw [if_pos hd] at hfu
          rcases hq : eqValTail p1 with _ | q2
          · rw [hq] at hfu
            exact Option.noConfusion hfu
          · rw [hq] at hfu
            change some ('"' :: u ++ '"' :: q2.1, u, q2.2.1, q2.2.2) = some r at hfu
            injection hfu with h2
            subst h2
            exact ⟨no_nl_of_run_split (· ≠ '\n') s1 u t (by simp) hsplit,
              eqValTail_g2 _ q2 hq⟩
        · rw [if_neg hd] at hfu
          exact Option.noConfusion hfu
    · rw [if_neg hc] at h
      exact Option.noConfusion h

/-- Both groups of a successful quoteless-entry match are newline-free. -/
theorem quotelessMatch_groups (s : List Char)
    (r : List Char × List Char × List Char × List Char)
    (h : quotelessMatch s = some r) : '\n' ∉ r.2.1 ∧ '\n' ∉ r.2.2.1 := by
  rw [quotelessMatch] at h
  obtain ⟨u, t, hsplit, hfu⟩ := lazyAsc_exists _ _ _ _ _ h
  rw [List.reverse_nil, List.nil_append] at hfu
  rcases hq : eqValTail (t ++ s.dropWhile (· ≠ '\n')) with _ | q2
  · rw [hq] at hfu
    exact Option.noConfusion hfu
  · rw [hq] at hfu
    change some (u ++ q2.1, u, q2.2.1, q2.2.2) = some r at hfu
    injection hfu with h2
    subst h2
    refine ⟨?_, eqValTail_g2 _ q2 hq⟩
    intro hm
    have hmu : '\n' ∈ u := hm
    have h1 : '\n' ∈ s.takeWhile (· ≠ '\n') := by
      rw [hsplit]
      exact List.mem_append_left t hmu
    have h3 := List.mem_takeWhile_imp h1
    simp at h3

/-- The comment pattern can only match at a quote or a slash. -/
theorem commentMatch_none_of_head (c : Char) (l : List Char)
    (h1 : c ≠ '\'') (h2 : c ≠ '/') : commentMatch (c :: l) = none := by
  rcases hm : commentMatch (c :: l) with _ | ⟨txt, rest⟩
  · rfl
  · obtain ⟨heq, c2, t2, htxt, hc2⟩ := commentMatch_spec (c :: l) txt rest hm
    subst htxt
    rw [List.cons_append] at heq
    injection heq with hc0 hrest
    rcases hc2 with hc2 | hc2
    · exact absurd (hc0.trans hc2) h1
    · exact absurd (hc0.trans hc2) h2

theorem containsCRLF_cons_ne (c : Char) (l : List Char) (hc : c ≠ '\r') :
    containsCRLF (c :: l) = containsCRLF l := by
  cases l with
  | nil => rfl
  | cons d t =>
    rw [containsCRLF]
    simp [hc]

theorem containsCRLF_no_nl : ∀ (l : List Char), '\n' ∉ l → containsCRLF l = false
  | [], _ => rfl
  | [_], _ => rfl
  | c :: d :: t, h => by
    rw [containsCRLF]
    have hd : ¬ d = '\n' := fun hh =>
      h (by rw [hh]; exact List.mem_cons_of_mem c (List.mem_cons_self '\n' t))
    have ht : '\n' ∉ d :: t := fun hh => h (List.mem_cons_of_mem c hh)
    rw [containsCRLF_no_nl (d :: t) ht]
    simp [hd]

theorem containsCRLF_append_false : ∀ (a b : List Char), containsCRLF a = false →
    containsCRLF b = false → (a.getLast? = some '\r' → b.head? ≠ some '\n') →
    containsCRLF (a ++ b) = false
  | [], _, _, hb, _ => hb
  | [x], b, _, hb, hab => by
    rw [List.singleton_append]
    by_cases hx : x = '\r'
    · subst hx
      have hbn := hab rfl
      cases b with
      | nil => rfl
      | cons d t =>
        rw [containsCRLF]
        have hd : ¬ d = '\n' := fun hh => hbn (by subst hh; rfl)
        rw [hb]
        simp [hd]
    · rw [containsCRLF_cons_ne x b hx]
      exact hb
  | x :: y :: a2, b, ha, hb, hab => by
    rw [containsCRLF] at ha
    obtain ⟨h1, h2⟩ := Bool.or_eq_false_iff.mp ha
    have hrec := containsCRLF_append_false (y :: a2) b h2 hb
      (fun hl => hab (by rw [List.getLast?_cons_cons]; exact hl))
    rw [List.cons_append, List.cons_append, containsCRLF, ← List.cons_append, hrec, h1]
    rfl

theorem dropWhile_head?_false (p : Char → Bool) (l : List Char) (c : Char)
    (h : (l.dropWhile p).head? = some c) : p c = false := by
  have h2 := List.head?_dropWhile_not p l
  rw [h] at h2
  exact h2

theorem dropWhile_eq_self_of_head? (p : Char → Bool) (l : List Char)
    (h : ∀ c, l.head? = some c → p c = false) : l.dropWhile p = l := by
  cases l with
  | nil => rfl
  | cons c t => exact List.dropWhile_cons_of_neg (by simp [h c rfl])

theorem dropWhile_getLast? (p : Char → Bool) : ∀ (l : List Char),
    l.dropWhile p ≠ [] → (l.dropWhile p).getLast? = l.getLast?
  | [], h => absurd rfl h
  | c :: t, h => by
    by_cases hc : p c
    · rw [List.dropWhile_cons_of_pos hc] at h ⊢
      cases t with
      | nil => exact absurd rfl h
      | cons d t2 =>
        rw [dropWhile_getLast? p (d :: t2) h, List.getLast?_cons_cons]
    · rw [List.dropWhile_cons_of_neg hc]

/-- `str.strip()` is idempotent. -/
theorem pyStrip_idem (l : List Char) : pyStrip (pyStrip l) = pyStrip l := by
  set A := l.dropWhile isPyWs with hA
  set B := A.reverse.dropWhile isPyWs with hB
  show ((B.reverse.dropWhile isPyWs).reverse.dropWhile isPyWs).reverse = B.reverse
  have h1 : B.reverse.dropWhile isPyWs = B.reverse := by
    apply dropWhile_eq_self_of_head?
    intro c hc
    rw [List.head?_reverse] at hc
    have hBne : B ≠ [] := by
      intro hBnil
      rw [hBnil] at hc
      exact Option.noConfusion hc
    rw [hB] at hc hBne
    rw [dropWhile_getLast? isPyWs A.reverse hBne, List.getLast?_reverse] at hc
    exact dropWhile_head?_false isPyWs l c hc
  rw [h1, List.reverse_reverse, hB, dropWhile_fix]

theorem pyStrip_length_le (l : List Char) :
    (pyStrip l).length ≤ (l.dropWhile isPyWs).length := by
  rw [pyStrip, List.length_reverse]
  calc ((l.dropWhile isPyWs).reverse.dropWhile isPyWs).length
      ≤ (l.dropWhile isPyWs).reverse.length := (List.dropWhile_sublist _).length_le
    _ = (l.dropWhile isPyWs).length := List.length_reverse _

/-- A string fixed by `strip()` starts with a non-whitespace character. -/
theorem strip_fixed_head (l : List Char) (h : pyStrip l = l) (c : Char)
    (hc : l.head? = some c) : isPyWs c = false := by
  by_contra hw
  have hw2 : isPyWs c = true := by
    cases hb : isPyWs c
    · exact absurd hb hw
    · rfl
  cases l with
  | nil => exact Option.noConfusion hc
  | cons c0 t =>
    rw [List.head?_cons] at hc
    have hc0 := Option.some.inj hc
    rw [← hc0] at hw2
    have hlen := congrArg List.length h
    have hle := pyStrip_length_le (c0 :: t)
    rw [List.dropWhile_cons_of_pos hw2] at hle
    have hle2 : (t.dropWhile isPyWs).length ≤ t.length :=
      (List.dropWhile_sublist _).length_le
    rw [List.length_cons] at hlen
    omega

/-- A string fixed by `strip()` ends with a non-whitespace character. -/
theorem strip_fixed_last (l : List Char) (h : pyStrip l = l) (c : Char)
    (hc : l.getLast? = some c) : isPyWs c = false := by
  by_contra hw
  have hw2 : isPyWs c = true := by
    cases hb : isPyWs c
    · exact absurd hb hw
    · rfl
  have hA : l.dropWhile isPyWs = l :=
    dropWhile_eq_self_of_head? _ _ (fun d hd => strip_fixed_head l h d hd)
  have hrev : l.reverse.head? = some c := by rw [List.head?_reverse]; exact hc
  rcases hlr : l.reverse with _ | ⟨r0, rt⟩
  · rw [hlr] at hrev; exact Option.noConfusion hrev
  · rw [hlr, List.head?_cons] at hrev
    have hr0 := Option.some.inj hrev
    subst hr0
    have hlen := congrArg List.length h
    rw [pyStrip, hA, hlr, List.dropWhile_cons_of_pos hw2, List.length_reverse] at hlen
    have hle : (rt.dropWhile isPyWs).length ≤ rt.length :=
      (List.dropWhile_sublist _).length_le
    have hll : l.length = rt.length + 1 := by
      rw [← List.length_reverse l, hlr, List.length_cons]
    omega

theorem pyStrip_cons_ws (c : Char) (l : List Char) (hc : isPyWs c = true) :
    pyStrip (c :: l) = pyStrip l := by
  rw [pyStrip, pyStrip, List.dropWhile_cons_of_pos hc]

/-- Stripping undoes the one-space padding that `strings_format` adds
around a comment block whose ends are non-whitespace. -/
theorem pyStrip_pad (l : List Char) (h0 : ∀ c, l.head? = some c → isPyWs c = false)
    (h1 : ∀ c, l.getLast? = some c → isPyWs c = false) :
    pyStrip (' ' :: (l ++ [' '])) = l := by
  cases l with
  | nil => rfl
  | cons c0 t =>
    rw [pyStrip_cons_ws ' ' _ (by decide)]
    rw [pyStrip]
    have hc0 : isPyWs c0 = false := h0 c0 rfl
    have hd : ((c0 :: t) ++ [' ']).dropWhile isPyWs = (c0 :: t) ++ [' '] := by
      rw [List.cons_append]
      exact List.dropWhile_cons_of_neg (by simp [hc0])
    rw [hd, List.reverse_append,
      show ([' '] : List Char).reverse = [' '] from rfl, List.singleton_append,
      List.dropWhile_cons_of_pos (by decide)]
    have h2 : (c0 :: t).reverse.dropWhile isPyWs = (c0 :: t).reverse := by
      apply dropWhile_eq_self_of_head?
      intro e he
      rw [List.head?_reverse] at he
      exact h1 e he
    rw [h2, List.reverse_reverse]

theorem pyStrip_spaces3 (l : List Char) :
    pyStrip (' ' :: ' ' :: ' ' :: l) = pyStrip l := by
  rw [pyStrip_cons_ws _ _ (by decide), pyStrip_cons_ws _ _ (by decide),
    pyStrip_cons_ws _ _ (by decide)]

theorem pyStrip_sub (l : List Char) (x : Char) (hx : x ∈ pyStrip l) : x ∈ l := by
  rw [pyStrip, List.mem_reverse] at hx
  have h1 : x ∈ (l.dropWhile isPyWs).reverse := (List.dropWhile_sublist isPyWs).subset hx
  rw [List.mem_reverse] at h1
  exact (List.dropWhile_sublist isPyWs).subset h1

theorem pySplitNl_ne_nil : ∀ (l : List Char), pySplitNl l ≠ []
  | [] => by simp [pySplitNl]
  | c :: rest => by
    rw [pySplitNl]
    rcases h : pySplitNl rest with _ | ⟨hd, tl⟩
    · simp
    · by_cases hc : c = '\n' <;> simp [hc]

theorem pySplitNl_no_nl : ∀ (l : List Char), '\n' ∉ l → pySplitNl l = [l]
  | [], _ => rfl
  | c :: rest, h => by
    rw [pySplitNl]
    have hrest := pySplitNl_no_nl rest (fun hh => h (List.mem_cons_of_mem c hh))
    rw [hrest]
    have hc : ¬ c = '\n' := fun hh => h (by rw [hh]; exact List.mem_cons_self _ _)
    simp [hc]

theorem pySplitNl_append_nl : ∀ (a y : List Char), '\n' ∉ a →
    pySplitNl (a ++ '\n' :: y) = a :: pySplitNl y
  | [], y, _ => by
    rw [List.nil_append, pySplitNl]
    rcases h : pySplitNl y with _ | ⟨hd, tl⟩
    · exact absurd h (pySplitNl_ne_nil y)
    · simp
  | c0 :: a2, y, h => by
    rw [List.cons_append, pySplitNl]
    have ha2 := pySplitNl_append_nl a2 y (fun hh => h (List.mem_cons_of_mem c0 hh))
    rw [ha2]
    have hc : ¬ c0 = '\n' := fun hh => h (by rw [hh]; exact List.mem_cons_self _ _)
    simp [hc]

theorem pySplitNl_mem_no_nl : ∀ (l : List Char), ∀ y ∈ pySplitNl l, '\n' ∉ y
  | [], y, hy => by
    simp [pySplitNl] at hy
    subst hy
    simp
  | c :: rest, y, hy => by
    rw [pySplitNl] at hy
    rcases h : pySplitNl rest with _ | ⟨hd, tl⟩
    · exact absurd h (pySplitNl_ne_nil rest)
    · rw [h] at hy
      dsimp only at hy
      by_cases hc : c = '\n'
      · rw [if_pos hc] at hy
        rcases List.mem_cons.mp hy with hy1 | hy2
        · subst hy1; simp
        · exact pySplitNl_mem_no_nl rest y (by rw [h]; exact hy2)
      · rw [if_neg hc] at hy
        rcases List.mem_cons.mp hy with hy1 | hy2
        · subst hy1
          intro hnl
          rcases List.mem_cons.mp hnl with h1 | h2
          · exact hc h1.symm
          · exact pySplitNl_mem_no_nl rest hd
              (by rw [h]; exact List.mem_cons_self _ _) h2
        · exact pySplitNl_mem_no_nl rest y (by rw [h]; exact List.mem_cons_of_mem hd hy2)

/-- Every fragment produced by the comment-processing step is newline-free
and fixed by `strip()`. -/
theorem processComment_good (c : List Char) :
    ∀ x ∈ processComment c, '\n' ∉ x ∧ pyStrip x = x := by
  intro x hx
  simp only [processComment, List.mem_map] at hx
  obtain ⟨y, hy, hxy⟩ := hx
  subst hxy
  constructor
  · intro hnl
    exact pySplitNl_mem_no_nl _ y hy (pyStrip_sub y '\n' hnl)
  · exact pyStrip_idem y

/-- The comment loop only accumulates newline-free, stripped fragments. -/
theorem commentLoop_good : ∀ (fuel : Nat) (sc : Scanner) (acc : List (List Char)),
    (∀ x ∈ acc, '\n' ∉ x ∧ pyStrip x = x) →
    ∀ x ∈ (commentLoop fuel sc acc).2, '\n' ∉ x ∧ pyStrip x = x
  | 0, sc, acc, hacc => hacc
  | fuel + 1, sc, acc, hacc => by
    rcases hm : patMatch .comment (sc.string.drop sc.offset) with _ | ⟨txt, rest⟩
    · rw [commentLoop_succ_none fuel sc acc hm]
      exact hacc
    · rw [commentLoop_succ_some fuel sc acc txt rest hm]
      refine commentLoop_good fuel _ _ ?_
      intro x hx
      rcases List.mem_append.mp hx with h1 | h2
      · exact hacc x h1
      · exact processComment_good txt x h2

theorem loadsLoop_succ_entry (fuel : Nat) (sc : Scanner) (acc : List DotStringsEntry)
    (hmore : sc.has_more = true) (sc2 : Scanner) (comments : List (List Char))
    (hwc : commentLoop ((sc.scan .whitespace).2.string.length + 1)
      (sc.scan .whitespace).2 [] = (sc2, comments))
    (txt rest : List Char)
    (hentry : patMatch .entry (sc2.string.drop sc2.offset) = some (txt, rest))
    (r : List Char × List Char × List Char × List Char)
    (hs : searchBy entryMatch txt = some r) :
    loadsLoop (fuel + 1) sc acc =
      loadsLoop fuel
        (Scanner.mk sc2.string (sc2.offset + txt.length) (sc2.line + txt.count '\n'))
        (acc ++ [⟨r.2.1, r.2.2.1, comments, sc2.line + txt.count '\n'⟩]) := by
  rw [loadsLoop]
  simp only [hmore, if_true, hwc, scan_eq_some sc2 .entry txt rest hentry, hs]

theorem loadsLoop_succ_entry_fail (fuel : Nat) (sc : Scanner)
    (acc : List DotStringsEntry)
    (hmore : sc.has_more = true) (sc2 : Scanner) (comments : List (List Char))
    (hwc : commentLoop ((sc.scan .whitespace).2.string.length + 1)
      (sc.scan .whitespace).2 [] = (sc2, comments))
    (txt rest : List Char)
    (hentry : patMatch .entry (sc2.string.drop sc2.offset) = some (txt, rest))
    (hs : searchBy entryMatch txt = none) :
    loadsLoop (fuel + 1) sc acc = .error (.failedParse (sc2.offset + txt.length)) := by
  rw [loadsLoop]
  simp only [hmore, if_true, hwc, scan_eq_some sc2 .entry txt rest hentry, hs]

theorem loadsLoop_succ_quoteless (fuel : Nat) (sc : Scanner)
    (acc : List DotStringsEntry)
    (hmore : sc.has_more = true) (sc2 : Scanner) (comments : List (List Char))
    (hwc : commentLoop ((sc.scan .whitespace).2.string.length + 1)
      (sc.scan .whitespace).2 [] = (sc2, comments))
    (hentry : patMatch .entry (sc2.string.drop sc2.offset) = none)
    (txt rest : List Char)
    (hq : patMatch .quoteless_key_entry (sc2.string.drop sc2.offset) = some (txt, rest))
    (r : List Char × List Char × List Char × List Char)
    (hs : searchBy quotelessMatch txt = some r) :
    loadsLoop (fuel + 1) sc acc =
      loadsLoop fuel
        (Scanner.mk sc2.string (sc2.offset + txt.length) (sc2.line + txt.count '\n'))
        (acc ++ [⟨r.2.1, r.2.2.1, comments, sc2.line + txt.count '\n'⟩]) := by
  rw [loadsLoop]
  simp only [hmore, if_true, hwc, scan_eq_none sc2 .entry hentry,
    scan_eq_some sc2 .quoteless_key_entry txt rest hq, hs]

theorem loadsLoop_succ_quoteless_fail (fuel : Nat) (sc : Scanner)
    (acc : List DotStringsEntry)
    (hmore : sc.has_more = true) (sc2 : Scanner) (comments : List (List Char))
    (hwc : commentLoop ((sc.scan .whitespace).2.string.length + 1)
      (sc.scan .whitespace).2 [] = (sc2, comments))
    (hentry : patMatch .entry (sc2.string.drop sc2.offset) = none)
    (txt rest : List Char)
    (hq : patMatch .quoteless_key_entry (sc2.string.drop sc2.offset) = some (txt, rest))
    (hs : searchBy quotelessMatch txt = none) :
    loadsLoop (fuel + 1) sc acc = .error (.failedParse (sc2.offset + txt.length)) := by
  rw [loadsLoop]
  simp only [hmore, if_true, hwc, scan_eq_none sc2 .entry hentry,
    scan_eq_some sc2 .quoteless_key_entry txt rest hq, hs]

/-- Invariant on the entries accumulated by the parse loop: key and value
are single-line and every comment fragment is newline-free and fixed by
`strip()`. -/
def GoodEntry (e : DotStringsEntry) : Prop :=
  '\n' ∉ e.key ∧ '\n' ∉ e.value ∧ ∀ c ∈ e.comments, '\n' ∉ c ∧ pyStrip c = c

theorem loadsLoop_good : ∀ (fuel : Nat) (sc : Scanner) (acc es : List DotStringsEntry),
    loadsLoop fuel sc acc = .ok es → (∀ e ∈ acc, GoodEntry e) → ∀ e ∈ es, GoodEntry e
  | 0, _, acc, es, h, hacc => by
    change Except.ok acc = Except.ok es at h
    injection h with h2
    subst h2
    exact hacc
  | fuel + 1, sc, acc, es, h, hacc => by
    by_cases hmore : sc.has_more = true
    · rcases hwc : commentLoop ((sc.scan .whitespace).2.string.length + 1)
        (sc.scan .whitespace).2 [] with ⟨sc2, comments⟩
      have hcg : ∀ x ∈ comments, '\n' ∉ x ∧ pyStrip x = x := by
        intro x hx
        have h2 := commentLoop_good ((sc.scan .whitespace).2.string.length + 1)
          (sc.scan .whitespace).2 [] (by intro z hz; cases hz) x
        rw [hwc] at h2
        exact h2 hx
      rcases hentry : patMatch .entry (sc2.string.drop sc2.offset) with _ | ⟨txt, rest⟩
      · rcases hq : patMatch .quoteless_key_entry (sc2.string.drop sc2.offset) with
          _ | ⟨txt, rest⟩
        · rw [loadsLoop_no_match fuel sc acc hmore sc2 comments hwc hentry hq] at h
          by_cases hm2 : sc2.has_more = true
          · rw [if_pos hm2] at h
            exact Except.noConfusion h
          · rw [if_neg hm2] at h
            injection h with h2
            subst h2
            exact hacc
        · rcases hs : searchBy quotelessMatch txt with _ | r
          · rw [loadsLoop_succ_quoteless_fail fuel sc acc hmore sc2 comments hwc
              hentry txt rest hq hs] at h
            exact Except.noConfusion h
          · rw [loadsLoop_succ_quoteless fuel sc acc hmore sc2 comments hwc
              hentry txt rest hq r hs] at h
            refine loadsLoop_good fuel _ _ es h ?_
            intro e he
            rcases List.mem_append.mp he with h1 | h2
            · exact hacc e h1
            · obtain ⟨s2, hm2⟩ := searchBy_some quotelessMatch txt r hs
              obtain ⟨hg1, hg2⟩ := quotelessMatch_groups s2 r hm2
              rcases List.mem_cons.mp h2 with h3 | h3
              · subst h3
                exact ⟨hg1, hg2, hcg⟩
              · exact absurd h3 (List.not_mem_nil e)
      · rcases hs : searchBy entryMatch txt with _ | r
        · rw [loadsLoop_succ_entry_fail fuel sc acc hmore sc2 comments hwc
            txt rest hentry hs] at h
          exact Except.noConfusion h
        · rw [loadsLoop_succ_entry fuel sc acc hmore sc2 comments hwc
            txt rest hentry r hs] at h
          refine loadsLoop_good fuel _ _ es h ?_
          intro e he
          rcases List.mem_append.mp he with h1 | h2
          · exact hacc e h1
          · obtain ⟨s2, hm2⟩ := searchBy_some entryMatch txt r hs
            obtain ⟨hg1, hg2⟩ := entryMatch_groups s2 r hm2
            rcases List.mem_cons.mp h2 with h3 | h3
            · subst h3
              exact ⟨hg1, hg2, hcg⟩
            · exact absurd h3 (List.not_mem_nil e)
    · rw [loadsLoop_done fuel sc acc hmore] at h
      injection h with h2
      subst h2
      exact hacc

/-- Every entry produced by `loads` satisfies the parse-loop invariant. -/
theorem loads_good (t : List Char) (es : List DotStringsEntry)
    (h : loads t = .ok es) : ∀ e ∈ es, GoodEntry e := by
  rw [loads] at h
  by_cases hcrlf : containsCRLF t = true
  · rw [if_pos hcrlf] at h
    exact Except.noConfusion h
  · rw [if_neg hcrlf] at h
    exact loadsLoop_good _ _ _ es h (by intro e he; cases he)

theorem drop_append_right (l₁ l₂ : List Char) (i : Nat) :
    (l₁ ++ l₂).drop (l₁.length + i) = l₂.drop i := by
  rw [← List.drop_drop, List.drop_left]

theorem drop_append_left (l₁ l₂ : List Char) (i : Nat) (h : i ≤ l₁.length) :
    (l₁ ++ l₂).drop i = l₁.drop i ++ l₂ := by
  conv_lhs => rw [← List.take_append_drop i l₁]
  rw [List.append_assoc,
    List.drop_left' (by rw [List.length_take]; exact Nat.min_eq_left h)]

theorem takeWhile_append_not (p : Char → Bool) (xs : List Char) (c : Char)
    (ys : List Char) (hc : p c = false) :
    ((xs ++ c :: ys).takeWhile p = xs.takeWhile p) ∧
      ((xs ++ c :: ys).dropWhile p = xs.dropWhile p ++ c :: ys) := by
  induction xs with
  | nil =>
    rw [List.nil_append]
    constructor
    · rw [List.takeWhile_cons_of_neg (by simp [hc])]
      rfl
    · rw [List.dropWhile_cons_of_neg (by simp [hc])]
      rfl
  | cons x xt ih =>
    by_cases hx : p x
    · constructor
      · rw [List.cons_append, List.takeWhile_cons_of_pos hx,
          List.takeWhile_cons_of_pos hx, ih.1]
      · rw [List.cons_append, List.dropWhile_cons_of_pos hx,
          List.dropWhile_cons_of_pos hx, ih.2]
    · constructor
      · rw [List.cons_append, List.takeWhile_cons_of_neg hx,
          List.takeWhile_cons_of_neg hx]
      · rw [List.cons_append, List.dropWhile_cons_of_neg hx,
          List.dropWhile_cons_of_neg hx, List.cons_append]

theorem mem_of_split_cons (l u t : List Char) (x : Char) (h : l = u ++ x :: t) :
    x ∈ l := by
  rw [h]
  exact List.mem_append_right u (List.mem_cons_self x t)

theorem suffix_of_append_split (k A u t : List Char) (h : k ++ A = u ++ t)
    (hle : t.length ≤ A.length) : t = A.drop (A.length - t.length) := by
  have hlen := congrArg List.length h
  rw [List.length_append, List.length_append] at hlen
  have hd := congrArg (List.drop u.length) h
  rw [List.drop_left] at hd
  rw [show u.length = k.length + (A.length - t.length) from by omega,
    drop_append_right] at hd
  exact hd.symm

/-- A newline-free string is one maximal run of the single-line dot. -/
theorem single_line_run (l : List Char) (h : '\n' ∉ l) :
    l.takeWhile (· ≠ '\n') = l ∧ l.dropWhile (· ≠ '\n') = [] := by
  constructor
  · rw [List.takeWhile_eq_self_iff]
    intro x hx
    simp
    intro he
    exact h (he ▸ hx)
  · rw [List.dropWhile_eq_nil_iff]
    intro x hx
    simp
    intro he
    exact h (he ▸ hx)

/-- `\s*=\s*"(.*)" *;` cannot match inside the serialized value followed by
its closing `";` when the value contains no quote character. -/
theorem eqValTail_quotefree_none (v : List Char) (hv : '"' ∉ v) :
    eqValTail (v ++ ['"', ';']) = none := by
  rw [eqValTail]
  apply greedyDesc_none
  intro u t hsplit
  rw [List.reverse_reverse] at hsplit
  obtain ⟨htw, hdw⟩ := takeWhile_append_not isPyWs v '"' [';'] (by decide)
  rw [htw] at hsplit
  rw [hdw]
  cases t with
  | cons t0 ts =>
    have ht0 : isPyWs t0 = true :=
      List.mem_takeWhile_imp (mem_of_split_cons _ u ts t0 hsplit)
    have hne : ¬ t0 = '=' := by
      intro he
      rw [he] at ht0
      exact absurd ht0 (by decide)
    rw [List.cons_append]
    show (if t0 = '=' then _ else none) = none
    rw [if_neg hne]
  | nil =>
    rw [List.nil_append]
    rcases hdv : v.dropWhile isPyWs with _ | ⟨c0, vt⟩
    · rw [List.nil_append]
      show (if ('"' : Char) = '=' then _ else none) = none
      rw [if_neg (by decide)]
    · rw [List.cons_append]
      show (if c0 = '=' then _ else none) = none
      by_cases hc0 : c0 = '='
      · rw [if_pos hc0]
        apply greedyDesc_none
        intro u2 t2 hsplit2
        rw [List.reverse_reverse] at hsplit2
        obtain ⟨htw2, hdw2⟩ := takeWhile_append_not isPyWs vt '"' [';'] (by decide)
        rw [htw2] at hsplit2
        rw [hdw2]
        show (valueTail (t2 ++ (vt.dropWhile isPyWs ++ '"' :: [';']))).map _ = none
        have hvt : valueTail (t2 ++ (vt.dropWhile isPyWs ++ '"' :: [';'])) = none := by
          cases t2 with
          | cons s0 ss =>
            have hs0 : isPyWs s0 = true :=
              List.mem_takeWhile_imp (mem_of_split_cons _ u2 ss s0 hsplit2)
            have hne : ¬ s0 = '"' := by
              intro he
              rw [he] at hs0
              exact absurd hs0 (by decide)
            rw [List.cons_append]
            show (if s0 = '"' then _ else none) = none
            rw [if_neg hne]
          | nil =>
            rw [List.nil_append]
            rcases hdt : vt.dropWhile isPyWs with _ | ⟨d0, dt⟩
            · rw [List.nil_append]
              decide
            · have hd0 : d0 ∈ v := by
                have h1 : d0 ∈ v.dropWhile isPyWs := by
                  rw [hdv]
                  exact List.mem_cons_of_mem c0 (by
                    have h2 : d0 ∈ vt.dropWhile isPyWs := by
                      rw [hdt]; exact List.mem_cons_self d0 dt
                    exact (List.dropWhile_sublist isPyWs).subset h2)
                exact (List.dropWhile_sublist isPyWs).subset h1
              have hne : ¬ d0 = '"' := by
                intro he
                rw [he] at hd0
                exact hv hd0
              rw [List.cons_append]
              show (if d0 = '"' then _ else none) = none
              rw [if_neg hne]
        rw [hvt]
        rfl
      · rw [if_neg hc0]

/-- `"(.*)" *;` matches the serialized `"v";` exactly, grouping the
value. -/
theorem valueTail_value (v : List Char) (hvn : '\n' ∉ v) :
    valueTail ('"' :: (v ++ ['"', ';'])) = some ('"' :: (v ++ ['"', ';']), v, []) := by
  simp only [valueTail]
  rw [if_pos trivial]
  have hnl : '\n' ∉ v ++ ['"', ';'] := by
    intro hm
    rcases List.mem_append.mp hm with h1 | h2
    · exact hvn h1
    · simp at h2
  obtain ⟨htw, hdw⟩ := single_line_run (v ++ ['"', ';']) hnl
  rw [htw, hdw]
  refine greedyDesc_found _ _ _ v ['"', ';'] _ (by simp) ?_ ?_
  · rw [List.append_nil]
    show (if ('"' : Char) = '"' then _ else none) = some _
    rw [if_pos rfl]
    rw [show spaceSemiTail [';'] = some ([';'], []) from by decide]
    show some ('"' :: v ++ '"' :: [';'], v, []) = some ('"' :: (v ++ ['"', ';']), v, [])
    simp
  · intro u2 t2 hsplit2 hlt2
    rw [List.reverse_reverse] at hsplit2
    cases t2 with
    | nil => rfl
    | cons x xs =>
      have hxs : xs = [] := List.length_eq_zero.mp (by simp at hlt2; omega)
      subst hxs
      have hx : x = ';' := by
        have h1 : (v ++ ['"', ';']).getLast? = some ';' := by
          rw [show v ++ ['"', ';'] = (v ++ ['"']) ++ [';'] from by simp,
            List.getLast?_concat]
        rw [hsplit2, List.getLast?_concat] at h1
        exact Option.some.inj h1
      subst hx
      show (if (';' : Char) = '"' then _ else none) = none
      rw [if_neg (by decide)]

/-- `\s*=\s*"(.*)" *;` matches the serialized ` = "v";` tail exactly. -/
theorem eqValTail_value (v : List Char) (hvn : '\n' ∉ v) :
    eqValTail (' ' :: '=' :: ' ' :: '"' :: (v ++ ['"', ';'])) =
      some (' ' :: '=' :: ' ' :: '"' :: (v ++ ['"', ';']), v, []) := by
  rw [eqValTail]
  rw [List.takeWhile_cons_of_pos (by decide), List.takeWhile_cons_of_neg (by decide),
    List.dropWhile_cons_of_pos (by decide), List.dropWhile_cons_of_neg (by decide)]
  refine greedyDesc_found _ _ _ [' '] [] _ (by simp) ?_ ?_
  · rw [List.nil_append]
    show (if ('=' : Char) = '=' then _ else none) = some _
    rw [if_pos rfl]
    rw [List.takeWhile_cons_of_pos (by decide), List.takeWhile_cons_of_neg (by decide),
      List.dropWhile_cons_of_pos (by decide), List.dropWhile_cons_of_neg (by decide)]
    refine greedyDesc_found _ _ _ [' '] [] _ (by simp) ?_ ?_
    · rw [List.nil_append]
      show (valueTail ('"' :: (v ++ ['"', ';']))).map _ = some _
      rw [valueTail_value v hvn]
      rfl
    · intro u2 t2 _ h2
      exact absurd h2 (Nat.not_lt_zero _)
  · intro u2 t2 _ h2
    exact absurd h2 (Nat.not_lt_zero _)

/-- `Patterns.entry` matches a serialized `"k" = "v";` line exactly when
key and value are quote- and newline-free, grouping key and value: the
greedy key group cannot extend past its closing quote because every longer
candidate fails. -/
theorem kv_entryMatch (k v : List Char) (hkn : '\n' ∉ k)
    (hvq : '"' ∉ v) (hvn : '\n' ∉ v) :
    entryMatch ('"' :: (k ++ '"' :: ' ' :: '=' :: ' ' :: '"' :: (v ++ ['"', ';']))) =
      some ('"' :: (k ++ '"' :: ' ' :: '=' :: ' ' :: '"' :: (v ++ ['"', ';'])),
        k, v, []) := by
  simp only [entryMatch]
  rw [if_pos trivial]
  have hnl : '\n' ∉ k ++ '"' :: ' ' :: '=' :: ' ' :: '"' :: (v ++ ['"', ';']) := by
    intro hm
    rcases List.mem_append.mp hm with h1 | h2
    · exact hkn h1
    · simp [List.mem_cons, List.mem_append] at h2
      exact hvn h2
  obtain ⟨htw, hdw⟩ := single_line_run _ hnl
  rw [htw, hdw]
  refine greedyDesc_found _ _ _ k
    ('"' :: ' ' :: '=' :: ' ' :: '"' :: (v ++ ['"', ';'])) _ (by simp) ?_ ?_
  · rw [List.append_nil]
    show (if ('"' : Char) = '"' then _ else none) = some _
    rw [if_pos rfl, eqValTail_value v hvn]
    rfl
  · intro u2 t2 hsplit2 hlt2
    rw [List.reverse_reverse] at hsplit2
    set A := '"' :: ' ' :: '=' :: ' ' :: '"' :: (v ++ ['"', ';']) with hA
    have hle : t2.length ≤ A.length := Nat.le_of_lt hlt2
    have ht2 := suffix_of_append_split k A u2 t2 hsplit2 hle
    clear_value A
    obtain ⟨j, hj⟩ : ∃ j, j = A.length - t2.length := ⟨_, rfl⟩
    rw [← hj] at ht2
    have hAlen : A.length = v.length + 7 := by
      rw [hA]
      simp only [List.length_cons, List.length_append, List.length_nil]
    have hbr : A = ['"', ' ', '=', ' ', '"'] ++ (v ++ ['"', ';']) := by
      rw [hA]
      rfl
    have hj1 : 1 ≤ j ∧ j ≤ v.length + 7 := by
      rw [hAlen] at hlt2
      omega
    have hcases : j = 1 ∨ j = 2 ∨ j = 3 ∨ j = 4 ∨ (5 ≤ j ∧ j ≤ 4 + v.length) ∨
        j = v.length + 5 ∨ j = v.length + 6 ∨ j = v.length + 7 := by omega
    rcases hcases with hc | hc | hc | hc | hc | hc | hc | hc
    · have hv1 : A.drop j = ' ' :: '=' :: ' ' :: '"' :: (v ++ ['"', ';']) := by
        rw [hc, hA]
        rfl
      rw [hv1] at ht2
      subst ht2
      show (if (' ' : Char) = '"' then _ else none) = none
      rw [if_neg (by decide)]
    · have hv1 : A.drop j = '=' :: ' ' :: '"' :: (v ++ ['"', ';']) := by
        rw [hc, hA]
        rfl
      rw [hv1] at ht2
      subst ht2
      show (if ('=' : Char) = '"' then _ else none) = none
      rw [if_neg (by decide)]
    · have hv1 : A.drop j = ' ' :: '"' :: (v ++ ['"', ';']) := by
        rw [hc, hA]
        rfl
      rw [hv1] at ht2
      subst ht2
      show (if (' ' : Char) = '"' then _ else none) = none
      rw [if_neg (by decide)]
    · have hv1 : A.drop j = '"' :: (v ++ ['"', ';']) := by
        rw [hc, hA]
        rfl
      rw [hv1] at ht2
      subst ht2
      show (if ('"' : Char) = '"' then _ else none) = none
      rw [if_pos rfl]
      show (eqValTail ((v ++ ['"', ';']) ++ [])).map _ = none
      rw [List.append_nil, eqValTail_quotefree_none v hvq]
      rfl
    · have h5 : (['"', ' ', '=', ' ', '"'] ++ (v ++ ['"', ';'])).drop (5 + (j - 5)) =
          (v ++ ['"', ';']).drop (j - 5) := by
        have h6 := drop_append_right ['"', ' ', '=', ' ', '"'] (v ++ ['"', ';']) (j - 5)
        simpa using h6
      have hdropA : A.drop j = v.drop (j - 5) ++ ['"', ';'] := by
        conv_lhs => rw [hbr, show j = 5 + (j - 5) from by omega]
        rw [h5, drop_append_left v ['"', ';'] (j - 5) (by omega)]
      rcases hvd : v.drop (j - 5) with _ | ⟨x0, xt⟩
      · have hlv := congrArg List.length hvd
        rw [List.length_drop] at hlv
        simp at hlv
        omega
      · rw [hvd] at hdropA
        rw [ht2, hdropA]
        show (if x0 = '"' then _ else none) = none
        have hx0 : x0 ∈ v := List.mem_of_mem_drop
          (by rw [hvd]; exact List.mem_cons_self x0 xt)
        have hne : ¬ x0 = '"' := by
          intro he
          rw [he] at hx0
          exact hvq hx0
        rw [if_neg hne]
    · have hdropA : A.drop j = ['"', ';'] := by
        have h6 := drop_append_right ['"', ' ', '=', ' ', '"'] (v ++ ['"', ';']) v.length
        rw [show (['"', ' ', '=', ' ', '"'] : List Char).length = 5 from rfl] at h6
        rw [hbr, hc, show v.length + 5 = 5 + v.length from by omega, h6, List.drop_left]
      rw [hdropA] at ht2
      subst ht2
      show (if ('"' : Char) = '"' then _ else none) = none
      rw [if_pos rfl]
      show (eqValTail ([';'] ++ [])).map _ = none
      rw [List.append_nil, show eqValTail [';'] = none from by decide]
      rfl
    · have hdropA : A.drop j = [';'] := by
        have h6 := drop_append_right ['"', ' ', '=', ' ', '"'] (v ++ ['"', ';'])
          (v.length + 1)
        rw [show (['"', ' ', '=', ' ', '"'] : List Char).length = 5 from rfl] at h6
        have h7 := drop_append_right v ['"', ';'] 1
        rw [hbr, hc, show v.length + 6 = 5 + (v.length + 1) from by omega, h6, h7]
        rfl
      rw [hdropA] at ht2
      subst ht2
      show (if (';' : Char) = '"' then _ else none) = none
      rw [if_neg (by decide)]
    · have hdropA : A.drop j = [] := by
        rw [hc, ← hAlen, List.drop_length]
      rw [hdropA] at ht2
      subst ht2
      rfl

/-- The block-comment star stops exactly at the first `*/`. -/
theorem blockTail_closes : ∀ (content rest : List Char),
    (∀ a b, content ≠ a ++ '*' :: '/' :: b) →
    blockTail (content ++ '*' :: '/' :: rest) = some (content ++ ['*', '/'], rest)
  | [], rest, _ => by
    rw [List.nil_append, List.nil_append, blockTail_cons2,
      if_neg (by simp), if_neg (by simp), orElse_none', if_pos rfl, if_pos rfl]
  | c :: ct, rest, hss => by
    have hss2 : ∀ a b, ct ≠ a ++ '*' :: '/' :: b := by
      intro a b he
      exact hss (c :: a) b (by rw [he, List.cons_append])
    rw [List.cons_append]
    rcases hct : ct ++ '*' :: '/' :: rest with _ | ⟨d, Y⟩
    · exact absurd hct (by simp)
    · have hrec := blockTail_closes ct rest hss2
      rw [hct] at hrec
      rw [blockTail_cons2]
      by_cases hc : c = '*'
      · have hd : d ≠ '/' := by
          cases ct with
          | nil =>
            rw [List.nil_append] at hct
            injection hct with h1 _
            rw [← h1]
            decide
          | cons e et =>
            rw [List.cons_append] at hct
            injection hct with h1 _
            intro hde
            exact hss [] et (by rw [hc, h1, hde]; rfl)
        rw [if_neg (by simp [hc]), if_pos (by simp [hd]), hrec]
        simp only [Option.map_some', orElse_some']
        rw [List.cons_append]
      · rw [if_pos hc, hrec]
        simp only [Option.map_some', orElse_some']
        rw [List.cons_append]

/-- `*/`-freeness of a string with no star. -/
theorem noSS_of_no_star (l : List Char) (h : '*' ∉ l) :
    ∀ a b, l ≠ a ++ '*' :: '/' :: b := by
  intro a b he
  exact h (mem_of_split_cons l a ('/' :: b) '*' he)

/-- `*/`-freeness is preserved by concatenation when the boundary does not
form `*/`. -/
theorem noSS_append : ∀ (x y : List Char),
    (∀ a b, x ≠ a ++ '*' :: '/' :: b) → (∀ a b, y ≠ a ++ '*' :: '/' :: b) →
    (x.getLast? = some '*' → y.head? ≠ some '/') →
    ∀ a b, x ++ y ≠ a ++ '*' :: '/' :: b
  | [], y, _, hy, _ => by
    rw [List.nil_append]
    exact hy
  | c :: xt, y, hx, hy, hb => by
    intro a b hab
    cases a with
    | nil =>
      rw [List.nil_append, List.cons_append] at hab
      injection hab with h1 h2
      cases xt with
      | nil =>
        rw [List.nil_append] at h2
        have hl : ([c] : List Char).getLast? = some '*' := by rw [h1]; rfl
        have hh : y.head? = some '/' := by rw [h2]; rfl
        exact hb hl hh
      | cons e et =>
        rw [List.cons_append] at h2
        injection h2 with h3 h4
        exact hx [] et (by rw [h1, h3]; rfl)
    | cons a0 ar =>
      rw [List.cons_append, List.cons_append] at hab
      injection hab with h1 h2
      have hxt : ∀ a2 b2, xt ≠ a2 ++ '*' :: '/' :: b2 := by
        intro a2 b2 he
        exact hx (c :: a2) b2 (by rw [he, List.cons_append])
      have hbt : xt.getLast? = some '*' → y.head? ≠ some '/' := by
        intro hl
        apply hb
        cases xt with
        | nil => exact Option.noConfusion hl
        | cons e et =>
          rw [List.getLast?_cons_cons]
          exact hl
      exact noSS_append xt y hxt hy hbt ar b h2

/-- The comment pattern matches the `/* ... */` block that `strings_format`
emits, stopping exactly at its closing `*/`, provided the block interior
contains no `*/`. -/
theorem commentMatch_block (C R : List Char)
    (hss : ∀ a b, C ≠ a ++ '*' :: '/' :: b) :
    commentMatch ('/' :: '*' :: (C ++ '*' :: '/' :: R)) =
      some ('/' :: '*' :: (C ++ ['*', '/']), R) := by
  rw [commentMatch, commentAlt1_cons, if_neg (by decide), orElse_none',
    commentAlt2_cons2, if_neg (by decide), orElse_none',
    commentAlt3_cons2, if_pos (by exact ⟨rfl, rfl⟩), blockTail_closes C R hss]
  rfl

/-- The interior of the comment block that `strings_format` builds: the
first comment, then every further comment on its own line behind a
three-space indent. -/
def commentJoin (c1 : List Char) (cs : List (List Char)) : List Char :=
  c1 ++ (cs.map fun c => '\n' :: ' ' :: ' ' :: ' ' :: c).flatten

theorem commentJoin_nil (c1 : List Char) : commentJoin c1 [] = c1 := by
  simp [commentJoin]

theorem commentJoin_cons (c1 c2 : List Char) (rest : List (List Char)) :
    commentJoin c1 (c2 :: rest) =
      c1 ++ '\n' :: ' ' :: ' ' :: ' ' :: commentJoin c2 rest := by
  rw [commentJoin, commentJoin, List.map_cons, List.flatten_cons]
  simp [List.append_assoc]

theorem commentJoin_head? (c1 : List Char) (cs : List (List Char)) (h : c1 ≠ []) :
    (commentJoin c1 cs).head? = c1.head? := by
  rw [commentJoin]
  cases c1 with
  | nil => exact absurd rfl h
  | cons a t => rfl

theorem commentJoin_getLast? : ∀ (cs : List (List Char)) (c1 : List Char),
    cs.getLastD c1 ≠ [] →
    (commentJoin c1 cs).getLast? = (cs.getLastD c1).getLast?
  | [], c1, _ => by
    rw [commentJoin_nil]
    rfl
  | c2 :: rest, c1, h => by
    rw [List.getLastD_cons] at h
    rw [commentJoin_cons, List.getLastD_cons]
    have hrecne : commentJoin c2 rest ≠ [] := by
      cases rest with
      | nil => rw [commentJoin_nil]; exact h
      | cons c3 r2 => rw [commentJoin_cons]; simp
    have hrec := commentJoin_getLast? rest c2 h
    obtain ⟨j0, jt, hJ⟩ : ∃ j0 jt, commentJoin c2 rest = j0 :: jt := by
      cases hcj : commentJoin c2 rest with
      | nil => exact absurd hcj hrecne
      | cons j0 jt => exact ⟨j0, jt, rfl⟩
    rw [hJ] at hrec
    rw [hJ, List.getLast?_append,
      show ('\n' :: ' ' :: ' ' :: ' ' :: j0 :: jt).getLast? = (j0 :: jt).getLast? from by
        rw [List.getLast?_cons_cons, List.getLast?_cons_cons, List.getLast?_cons_cons,
          List.getLast?_cons_cons],
      hrec]
    rcases hgl2 : (rest.getLastD c2).getLast? with _ | d
    · rw [List.getLast?_eq_none_iff] at hgl2
      exact absurd hgl2 h
    · rfl

theorem commentJoin_noSS : ∀ (cs : List (List Char)) (c1 : List Char),
    (∀ a b, c1 ≠ a ++ '*' :: '/' :: b) →
    (∀ c ∈ cs, ∀ a b, c ≠ a ++ '*' :: '/' :: b) →
    ∀ a b, commentJoin c1 cs ≠ a ++ '*' :: '/' :: b
  | [], c1, h1, _ => by
    rw [commentJoin_nil]
    exact h1
  | c2 :: rest, c1, h1, hall => by
    rw [commentJoin_cons]
    apply noSS_append c1 _ h1
    · have hJ := commentJoin_noSS rest c2 (hall c2 (List.mem_cons_self _ _))
        (fun c hc => hall c (List.mem_cons_of_mem c2 hc))
      have h4 : ∀ a b, (['\n', ' ', ' ', ' '] : List Char) ≠ a ++ '*' :: '/' :: b :=
        noSS_of_no_star _ (by decide)
      exact noSS_append ['\n', ' ', ' ', ' '] (commentJoin c2 rest) h4 hJ
        (by intro hl; exact absurd hl (by decide))
    · intro hl
      rw [List.head?_cons]
      simp

theorem commentJoin_noCRLF : ∀ (cs : List (List Char)) (c1 : List Char),
    ('\n' ∉ c1 ∧ pyStrip c1 = c1) → (∀ c ∈ cs, '\n' ∉ c ∧ pyStrip c = c) →
    containsCRLF (commentJoin c1 cs) = false ∧
      (commentJoin c1 cs).getLast? ≠ some '\r'
  | [], c1, h1, _ => by
    rw [commentJoin_nil]
    refine ⟨containsCRLF_no_nl c1 h1.1, ?_⟩
    intro hl
    exact absurd (strip_fixed_last c1 h1.2 '\r' hl) (by decide)
  | c2 :: rest, c1, h1, hall => by
    have hrec := commentJoin_noCRLF rest c2 (hall c2 (List.mem_cons_self _ _))
      (fun c hc => hall c (List.mem_cons_of_mem c2 hc))
    rw [commentJoin_cons]
    have hbody : containsCRLF ('\n' :: ' ' :: ' ' :: ' ' :: commentJoin c2 rest) = false := by
      rw [containsCRLF_cons_ne _ _ (by decide), containsCRLF_cons_ne _ _ (by decide),
        containsCRLF_cons_ne _ _ (by decide), containsCRLF_cons_ne _ _ (by decide)]
      exact hrec.1
    constructor
    · exact containsCRLF_append_false c1 _ (containsCRLF_no_nl c1 h1.1) hbody
        (fun hl => absurd (strip_fixed_last c1 h1.2 '\r' hl) (by decide))
    · intro hl
      rw [List.getLast?_append] at hl
      rcases hJnil : commentJoin c2 rest with _ | ⟨j0, jt⟩
      · rw [hJnil] at hl
        simp at hl
      · rw [hJnil] at hl
        rw [show ('\n' :: ' ' :: ' ' :: ' ' :: j0 :: jt).getLast? = (j0 :: jt).getLast? from by
          rw [List.getLast?_cons_cons, List.getLast?_cons_cons, List.getLast?_cons_cons,
            List.getLast?_cons_cons]] at hl
        rcases hgl : (j0 :: jt).getLast? with _ | d
        · exact absurd hgl (by simp)
        · rw [hgl, show (some d).or (c1.getLast?) = some d from rfl] at hl
          exact hrec.2 (by rw [hJnil, hgl]; exact hl)

theorem pySplitNl_cons_ne (c : Char) (hc : ¬ c = '\n') (l : List Char)
    (hd : List Char) (tl : List (List Char)) (h : pySplitNl l = hd :: tl) :
    pySplitNl (c :: l) = (c :: hd) :: tl := by
  rw [pySplitNl, h]
  simp [hc]

/-- Splitting the joined comment block on newlines recovers the comments,
each continuation line still carrying its three-space indent. -/
theorem pySplitNl_commentJoin : ∀ (cs : List (List Char)) (c1 : List Char),
    '\n' ∉ c1 → (∀ c ∈ cs, '\n' ∉ c) →
    pySplitNl (commentJoin c1 cs) = c1 :: cs.map (fun c => ' ' :: ' ' :: ' ' :: c)
  | [], c1, h1, _ => by
    rw [commentJoin_nil, pySplitNl_no_nl c1 h1]
    rfl
  | c2 :: rest, c1, h1, hall => by
    rw [commentJoin_cons, pySplitNl_append_nl c1 _ h1]
    have hrec := pySplitNl_commentJoin rest c2 (hall c2 (List.mem_cons_self _ _))
      (fun c hc => hall c (List.mem_cons_of_mem c2 hc))
    have h3 := pySplitNl_cons_ne ' ' (by decide) _ _ _ hrec
    have h2 := pySplitNl_cons_ne ' ' (by decide) _ _ _ h3
    have h1s := pySplitNl_cons_ne ' ' (by decide) _ _ _ h2
    rw [h1s, List.map_cons]

theorem map_strip_spaces3 : ∀ (cs : List (List Char)),
    (∀ c ∈ cs, pyStrip c = c) →
    cs.map (fun c => pyStrip (' ' :: ' ' :: ' ' :: c)) = cs
  | [], _ => rfl
  | c :: rest, h => by
    rw [List.map_cons, pyStrip_spaces3, h c (List.mem_cons_self _ _),
      map_strip_spaces3 rest (fun x hx => h x (List.mem_cons_of_mem c hx))]

theorem isPrefixOf2_cons2 (a b c d : Char) (X : List Char) :
    ([a, b] : List Char).isPrefixOf (c :: d :: X) = ((a == c) && (b == d)) := by
  simp [List.isPrefixOf]

/-- `str.replace(old, "", 1)` on a string starting with `old` drops that
prefix. -/
theorem pyReplaceOnce_head (old s : List Char) (h : old.isPrefixOf s = true) :
    pyReplaceOnce old [] s = s.drop old.length := by
  rw [pyReplaceOnce]
  cases s with
  | nil =>
    rw [findSub, if_pos h]
    show List.take 0 [] ++ [] ++ List.drop (0 + old.length) [] = List.drop old.length []
    simp
  | cons c t =>
    rw [findSub, if_pos h]
    show (c :: t).take 0 ++ [] ++ (c :: t).drop (0 + old.length) = (c :: t).drop old.length
    simp

theorem drop_two (a b : Char) (l : List Char) : (a :: b :: l).drop 2 = l := rfl

theorem getLastD_mem : ∀ (cs : List (List Char)) (c1 : List Char),
    cs.getLastD c1 ∈ c1 :: cs
  | [], _ => List.mem_cons_self _ _
  | c2 :: rest, c1 => by
    rw [List.getLastD_cons]
    rcases List.mem_cons.mp (getLastD_mem rest c2) with h | h
    · rw [h]
      exact List.mem_cons_of_mem c1 (List.mem_cons_self _ _)
    · exact List.mem_cons_of_mem c1 (List.mem_cons_of_mem c2 h)

/-- Processing the matched `/* ... */` block that `strings_format` emitted
recovers the original comment list, provided the comments are newline-free
and stripped, and — with two or more comments — the first and last are
non-empty. -/
theorem processComment_block (c1 : List Char) (cs : List (List Char))
    (hgood : ∀ c ∈ c1 :: cs, '\n' ∉ c ∧ pyStrip c = c)
    (hne : cs ≠ [] → c1 ≠ [] ∧ cs.getLastD c1 ≠ []) :
    processComment
        ('/' :: '*' :: ((' ' :: (commentJoin c1 cs ++ [' '])) ++ ['*', '/'])) =
      c1 :: cs := by
  have hp1 : ("//".toList).isPrefixOf
      ('/' :: '*' :: ((' ' :: (commentJoin c1 cs ++ [' '])) ++ ['*', '/'])) = false := by
    rw [show ("//".toList : List Char) = ['/', '/'] from rfl, isPrefixOf2_cons2]
    decide
  have hp2 : ("/*".toList).isPrefixOf
      ('/' :: '*' :: ((' ' :: (commentJoin c1 cs ++ [' '])) ++ ['*', '/'])) = true := by
    rw [show ("/*".toList : List Char) = ['/', '*'] from rfl, isPrefixOf2_cons2]
    decide
  simp only [processComment]
  rw [if_neg (by rw [hp1]; exact Bool.false_ne_true), if_pos hp2,
    pyReplaceOnce_head _ _ hp2,
    show ("/*".toList : List Char).length = 2 from rfl, drop_two]
  have hrev1 : ((' ' :: (commentJoin c1 cs ++ [' '])) ++ ['*', '/']).reverse =
      '/' :: '*' :: (' ' :: (commentJoin c1 cs ++ [' '])).reverse := by
    rw [List.reverse_append]
    rfl
  rw [hrev1]
  have hp3 : ("/*".toList).isPrefixOf
      ('/' :: '*' :: (' ' :: (commentJoin c1 cs ++ [' '])).reverse) = true := by
    rw [show ("/*".toList : List Char) = ['/', '*'] from rfl, isPrefixOf2_cons2]
    decide
  rw [pyReplaceOnce_head _ _ hp3,
    show ("/*".toList : List Char).length = 2 from rfl, drop_two,
    List.reverse_reverse]
  by_cases hcs : cs = []
  · subst hcs
    rw [commentJoin_nil]
    by_cases hc1 : c1 = []
    · subst hc1
      decide
    · have hg := hgood c1 (List.mem_cons_self c1 [])
      rw [pyStrip_pad c1 (fun d hd => strip_fixed_head c1 hg.2 d hd)
          (fun d hd => strip_fixed_last c1 hg.2 d hd),
        pySplitNl_no_nl c1 hg.1, List.map_cons, List.map_nil, hg.2]
  · obtain ⟨hc1ne, hlastne⟩ := hne hcs
    have hglast : cs.getLastD c1 ∈ c1 :: cs := getLastD_mem cs c1
    have hX0 : ∀ d, (commentJoin c1 cs).head? = some d → isPyWs d = false := by
      intro d hd
      rw [commentJoin_head? c1 cs hc1ne] at hd
      exact strip_fixed_head c1 (hgood c1 (List.mem_cons_self _ _)).2 d hd
    have hX1 : ∀ d, (commentJoin c1 cs).getLast? = some d → isPyWs d = false := by
      intro d hd
      rw [commentJoin_getLast? cs c1 hlastne] at hd
      exact strip_fixed_last _ (hgood _ hglast).2 d hd
    rw [pyStrip_pad _ hX0 hX1,
      pySplitNl_commentJoin cs c1 (hgood c1 (List.mem_cons_self _ _)).1
        (fun c hc => (hgood c (List.mem_cons_of_mem c1 hc)).1),
      List.map_cons, (hgood c1 (List.mem_cons_self _ _)).2, List.map_map]
    have hmap : cs.map (pyStrip ∘ fun c => ' ' :: ' ' :: ' ' :: c) =
        cs.map (fun c => pyStrip (' ' :: ' ' :: ' ' :: c)) := rfl
    rw [hmap, map_strip_spaces3 cs
      (fun c hc => (hgood c (List.mem_cons_of_mem c1 hc)).2)]

theorem midJoin : ∀ (m : List (List Char)) (lst : List Char),
    '\n' :: ((m.map fun c => ' ' :: ' ' :: ' ' :: (c ++ ['\n'])).flatten ++
      (' ' :: ' ' :: ' ' :: lst)) =
    ((m ++ [lst]).map fun c => '\n' :: ' ' :: ' ' :: ' ' :: c).flatten
  | [], lst => by simp
  | c :: m2, lst => by
    have ih := midJoin m2 lst
    simp only [List.cons_append, List.map_cons, List.flatten_cons]
    rw [← ih]
    simp [List.append_assoc]

/-- `strings_format` with at least one comment: one `/* ... */` block whose
interior is the joined comment list, then the key/value line. -/
theorem strings_format_block (e : DotStringsEntry) (c1 : List Char)
    (cs : List (List Char)) (hc : e.comments = c1 :: cs) :
    e.strings_format =
      '/' :: '*' :: ((' ' :: (commentJoin c1 cs ++ [' '])) ++ '*' :: '/' ::
        '\n' :: ('"' :: (e.key ++ '"' :: ' ' :: '=' :: ' ' :: '"' ::
          (e.value ++ ['"', ';'])))) := by
  obtain ⟨k, v, cms, ln⟩ := e
  simp only at hc
  subst hc
  cases cs with
  | nil =>
    show "/* ".toList ++ c1 ++ " */\n".toList ++
        ('"' :: k ++ '"' :: " = ".toList ++ '"' :: v ++ "\";".toList) = _
    rw [commentJoin_nil]
    simp only [show ("/* ".toList : List Char) = ['/', '*', ' '] from rfl,
      show (" */\n".toList : List Char) = [' ', '*', '/', '\n'] from rfl,
      show (" = ".toList : List Char) = [' ', '=', ' '] from rfl,
      show ("\";".toList : List Char) = ['"', ';'] from rfl]
    simp [List.append_assoc]
  | cons c2 cs2 =>
    cases cs2 with
    | nil =>
      show "/* ".toList ++ c1 ++ "\n   ".toList ++ c2 ++ " */\n".toList ++
          ('"' :: k ++ '"' :: " = ".toList ++ '"' :: v ++ "\";".toList) = _
      rw [commentJoin_cons, commentJoin_nil]
      simp only [show ("/* ".toList : List Char) = ['/', '*', ' '] from rfl,
        show (" */\n".toList : List Char) = [' ', '*', '/', '\n'] from rfl,
        show ("\n   ".toList : List Char) = ['\n', ' ', ' ', ' '] from rfl,
        show (" = ".toList : List Char) = [' ', '=', ' '] from rfl,
        show ("\";".toList : List Char) = ['"', ';'] from rfl]
      simp [List.append_assoc]
    | cons c3 cs3 =>
      show "/* ".toList ++ c1 ++ "\n".toList ++
          ((c2 :: c3 :: cs3).dropLast.foldl
            (fun out c => out ++ "   ".toList ++ c ++ "\n".toList) []) ++
          "   ".toList ++ (c2 :: c3 :: cs3).getLastD [] ++ " */\n".toList ++
          ('"' :: k ++ '"' :: " = ".toList ++ '"' :: v ++ "\";".toList) = _
      rw [foldl_format_comments, List.nil_append]
      obtain ⟨m, lst, hml⟩ : ∃ m lst, c2 :: c3 :: cs3 = m ++ [lst] := by
        rcases List.eq_nil_or_concat (c2 :: c3 :: cs3) with h | ⟨L, b, hl⟩
        · exact absurd h (by simp)
        · exact ⟨L, b, by rw [hl, List.concat_eq_append]⟩
      rw [hml, List.dropLast_concat, List.getLastD_concat, commentJoin]
      have hfun : (m.map fun c => "   ".toList ++ c ++ "\n".toList) =
          m.map (fun c => ' ' :: ' ' :: ' ' :: (c ++ ['\n'])) :=
        List.map_congr_left (fun c _ => by simp)
      rw [hfun, ← midJoin m lst]
      simp only [show ("/* ".toList : List Char) = ['/', '*', ' '] from rfl,
        show (" */\n".toList : List Char) = [' ', '*', '/', '\n'] from rfl,
        show ("\n".toList : List Char) = ['\n'] from rfl,
        show ("   ".toList : List Char) = [' ', ' ', ' '] from rfl,
        show (" = ".toList : List Char) = [' ', '=', ' '] from rfl,
        show ("\";".toList : List Char) = ['"', ';'] from rfl]
      simp [List.append_assoc]

/-- `loads` on a bare serialized key/value line yields exactly that entry,
with no comments, on line 0. -/
theorem loads_kv (k v : List Char) (hkn : '\n' ∉ k) (hvq : '"' ∉ v) (hvn : '\n' ∉ v) :
    loads ('"' :: (k ++ '"' :: ' ' :: '=' :: ' ' :: '"' :: (v ++ ['"', ';']))) =
      .ok [⟨k, v, [], 0⟩] := by
  have hKVnl : '\n' ∉
      '"' :: (k ++ '"' :: ' ' :: '=' :: ' ' :: '"' :: (v ++ ['"', ';'])) := by
    intro hm
    rcases List.mem_cons.mp hm with h | h
    · exact absurd h (by decide)
    · rcases List.mem_append.mp h with h1 | h2
      · exact hkn h1
      · simp [List.mem_cons, List.mem_append] at h2
        exact hvn h2
  have hcrlf := containsCRLF_no_nl _ hKVnl
  rw [loads_eq_loop _ hcrlf]
  have hmore : (Scanner.mk
      ('"' :: (k ++ '"' :: ' ' :: '=' :: ' ' :: '"' :: (v ++ ['"', ';'])))
      0 0).has_more = true := by
    rw [Scanner.has_more]
    simp
  have hws2 : ((Scanner.mk
      ('"' :: (k ++ '"' :: ' ' :: '=' :: ' ' :: '"' :: (v ++ ['"', ';'])))
      0 0).scan .whitespace).2 = Scanner.mk
      ('"' :: (k ++ '"' :: ' ' :: '=' :: ' ' :: '"' :: (v ++ ['"', ';']))) 0 0 := by
    rw [scan_ws_eq]
    dsimp only
    rw [List.drop_zero, List.takeWhile_cons_of_neg (by decide)]
    rfl
  have hcm0 : patMatch .comment
      (('"' :: (k ++ '"' :: ' ' :: '=' :: ' ' :: '"' :: (v ++ ['"', ';']))).drop 0) =
      none := by
    rw [List.drop_zero]
    exact commentMatch_none_of_head '"' _ (by decide) (by decide)
  have hcl : commentLoop
      (('"' :: (k ++ '"' :: ' ' :: '=' :: ' ' :: '"' :: (v ++ ['"', ';']))).length + 1)
      (Scanner.mk ('"' :: (k ++ '"' :: ' ' :: '=' :: ' ' :: '"' :: (v ++ ['"', ';']))) 0 0)
      [] =
      (Scanner.mk ('"' :: (k ++ '"' :: ' ' :: '=' :: ' ' :: '"' :: (v ++ ['"', ';']))) 0 0,
        []) :=
    commentLoop_succ_none _ _ [] hcm0
  have hpm : patMatch .entry
      (('"' :: (k ++ '"' :: ' ' :: '=' :: ' ' :: '"' :: (v ++ ['"', ';']))).drop 0) =
      some ('"' :: (k ++ '"' :: ' ' :: '=' :: ' ' :: '"' :: (v ++ ['"', ';'])), []) := by
    rw [List.drop_zero]
    show (entryMatch _).map (fun r => (r.1, r.2.2.2)) = _
    rw [kv_entryMatch k v hkn hvq hvn]
    rfl
  have hsb : searchBy entryMatch
      ('"' :: (k ++ '"' :: ' ' :: '=' :: ' ' :: '"' :: (v ++ ['"', ';']))) =
      some ('"' :: (k ++ '"' :: ' ' :: '=' :: ' ' :: '"' :: (v ++ ['"', ';'])),
        k, v, []) := by
    rw [searchBy_cons, kv_entryMatch k v hkn hvq hvn]
  have hcnt : ('"' :: (k ++ '"' :: ' ' :: '=' :: ' ' :: '"' :: (v ++ ['"', ';']))).count
      '\n' = 0 := List.count_eq_zero.mpr hKVnl
  rw [loadsLoop_succ_entry _ _ [] hmore _ [] (by rw [hws2]; exact hcl) _ [] hpm _ hsb]
  simp only [List.nil_append]
  rw [hcnt]
  simp only [Nat.zero_add, Nat.add_zero]
  obtain ⟨M, hM⟩ : ∃ M,
      ('"' :: (k ++ '"' :: ' ' :: '=' :: ' ' :: '"' :: (v ++ ['"', ';']))).length =
        M + 1 :=
    ⟨_, by rw [List.length_cons]⟩
  rw [hM]
  rw [loadsLoop_done M _ _ (by rw [Scanner.has_more]; simp [hM])]

/-- `loads` on a serialized comment block followed by the key/value line
yields exactly one entry carrying the original comment list. -/
theorem loads_block (k v c1 : List Char) (cs : List (List Char))
    (hkn : '\n' ∉ k) (hvq : '"' ∉ v) (hvn : '\n' ∉ v)
    (hgood : ∀ c ∈ c1 :: cs, '\n' ∉ c ∧ pyStrip c = c)
    (hss : ∀ c ∈ c1 :: cs, ∀ a b, c ≠ a ++ '*' :: '/' :: b)
    (hne : cs ≠ [] → c1 ≠ [] ∧ cs.getLastD c1 ≠ []) :
    ∃ l, loads ('/' :: '*' :: ((' ' :: (commentJoin c1 cs ++ [' '])) ++ '*' :: '/' ::
        '\n' :: ('"' :: (k ++ '"' :: ' ' :: '=' :: ' ' :: '"' :: (v ++ ['"', ';']))))) =
      .ok [⟨k, v, c1 :: cs, l⟩] := by
  have hXnoSS : ∀ a b, commentJoin c1 cs ≠ a ++ '*' :: '/' :: b :=
    commentJoin_noSS cs c1 (hss c1 (List.mem_cons_self _ _))
      (fun c hc => hss c (List.mem_cons_of_mem c1 hc))
  have hCnoSS : ∀ a b, (' ' :: (commentJoin c1 cs ++ [' '])) ≠ a ++ '*' :: '/' :: b := by
    have h1 : ∀ a b, (commentJoin c1 cs ++ [' ']) ≠ a ++ '*' :: '/' :: b :=
      noSS_append _ [' '] hXnoSS (noSS_of_no_star _ (by decide)) (fun _ => by decide)
    exact noSS_append [' '] _ (noSS_of_no_star _ (by decide)) h1
      (by intro hl; exact absurd hl (by decide))
  have hXcrlf := commentJoin_noCRLF cs c1 (hgood c1 (List.mem_cons_self _ _))
    (fun c hc => hgood c (List.mem_cons_of_mem c1 hc))
  have hKVnl : '\n' ∉
      '"' :: (k ++ '"' :: ' ' :: '=' :: ' ' :: '"' :: (v ++ ['"', ';'])) := by
    intro hm
    rcases List.mem_cons.mp hm with h | h
    · exact absurd h (by decide)
    · rcases List.mem_append.mp h with h1 | h2
      · exact hkn h1
      · simp [List.mem_cons, List.mem_append] at h2
        exact hvn h2
  have hscrlf : containsCRLF ('/' :: '*' :: ((' ' :: (commentJoin c1 cs ++ [' '])) ++
      '*' :: '/' :: '\n' ::
      ('"' :: (k ++ '"' :: ' ' :: '=' :: ' ' :: '"' :: (v ++ ['"', ';']))))) = false := by
    rw [containsCRLF_cons_ne _ _ (by decide), containsCRLF_cons_ne _ _ (by decide),
      List.cons_append, containsCRLF_cons_ne _ _ (by decide)]
    apply containsCRLF_append_false
    · exact containsCRLF_append_false _ _ hXcrlf.1 rfl (fun _ => by decide)
    · rw [containsCRLF_cons_ne _ _ (by decide), containsCRLF_cons_ne _ _ (by decide),
        containsCRLF_cons_ne _ _ (by decide)]
      exact containsCRLF_no_nl _ hKVnl
    · intro hl
      rw [List.head?_cons]
      simp
  rw [loads_eq_loop _ hscrlf]
  have hmore : (Scanner.mk ('/' :: '*' :: ((' ' :: (commentJoin c1 cs ++ [' '])) ++
      '*' :: '/' :: '\n' ::
      ('"' :: (k ++ '"' :: ' ' :: '=' :: ' ' :: '"' :: (v ++ ['"', ';'])))))
      0 0).has_more = true := by
    rw [Scanner.has_more]
    simp
  have hws2 : ((Scanner.mk ('/' :: '*' :: ((' ' :: (commentJoin c1 cs ++ [' '])) ++
      '*' :: '/' :: '\n' ::
      ('"' :: (k ++ '"' :: ' ' :: '=' :: ' ' :: '"' :: (v ++ ['"', ';'])))))
      0 0).scan .whitespace).2 =
      Scanner.mk ('/' :: '*' :: ((' ' :: (commentJoin c1 cs ++ [' '])) ++
        '*' :: '/' :: '\n' ::
        ('"' :: (k ++ '"' :: ' ' :: '=' :: ' ' :: '"' :: (v ++ ['"', ';']))))) 0 0 := by
    rw [scan_ws_eq]
    dsimp only
    rw [List.drop_zero, List.takeWhile_cons_of_neg (by decide)]
    rfl
  have hsplit : ('/' :: '*' :: ((' ' :: (commentJoin c1 cs ++ [' '])) ++
      '*' :: '/' :: '\n' ::
      ('"' :: (k ++ '"' :: ' ' :: '=' :: ' ' :: '"' :: (v ++ ['"', ';']))))) =
      ('/' :: '*' :: ((' ' :: (commentJoin c1 cs ++ [' '])) ++ ['*', '/'])) ++
        '\n' :: ('"' :: (k ++ '"' :: ' ' :: '=' :: ' ' :: '"' :: (v ++ ['"', ';']))) := by
    simp [List.cons_append, List.append_assoc]
  have hdrop1 : ('/' :: '*' :: ((' ' :: (commentJoin c1 cs ++ [' '])) ++
      '*' :: '/' :: '\n' ::
      ('"' :: (k ++ '"' :: ' ' :: '=' :: ' ' :: '"' :: (v ++ ['"', ';']))))).drop
      (0 + ('/' :: '*' :: ((' ' :: (commentJoin c1 cs ++ [' '])) ++ ['*', '/'])).length) =
      '\n' :: ('"' :: (k ++ '"' :: ' ' :: '=' :: ' ' :: '"' :: (v ++ ['"', ';']))) := by
    rw [Nat.zero_add]
    conv_lhs => rw [hsplit]
    rw [List.drop_left]
  have hdrop2 : ('/' :: '*' :: ((' ' :: (commentJoin c1 cs ++ [' '])) ++
      '*' :: '/' :: '\n' ::
      ('"' :: (k ++ '"' :: ' ' :: '=' :: ' ' :: '"' :: (v ++ ['"', ';']))))).drop
      (0 + ('/' :: '*' :: ((' ' :: (commentJoin c1 cs ++ [' '])) ++ ['*', '/'])).length
        + 1) =
      '"' :: (k ++ '"' :: ' ' :: '=' :: ' ' :: '"' :: (v ++ ['"', ';'])) := by
    rw [Nat.zero_add, ← List.drop_drop]
    conv_lhs => rw [hsplit]
    rw [List.drop_left]
    rfl
  have hcmA : patMatch .comment (('/' :: '*' :: ((' ' :: (commentJoin c1 cs ++ [' '])) ++
      '*' :: '/' :: '\n' ::
      ('"' :: (k ++ '"' :: ' ' :: '=' :: ' ' :: '"' :: (v ++ ['"', ';']))))).drop 0) =
      some ('/' :: '*' :: ((' ' :: (commentJoin c1 cs ++ [' '])) ++ ['*', '/']),
        '\n' :: ('"' :: (k ++ '"' :: ' ' :: '=' :: ' ' :: '"' :: (v ++ ['"', ';'])))) := by
    rw [List.drop_zero]
    exact commentMatch_block (' ' :: (commentJoin c1 cs ++ [' '])) _ hCnoSS
  have hcmB : patMatch .comment (('/' :: '*' :: ((' ' :: (commentJoin c1 cs ++ [' '])) ++
      '*' :: '/' :: '\n' ::
      ('"' :: (k ++ '"' :: ' ' :: '=' :: ' ' :: '"' :: (v ++ ['"', ';']))))).drop
      (0 + ('/' :: '*' :: ((' ' :: (commentJoin c1 cs ++ [' '])) ++ ['*', '/'])).length
        + 1)) = none := by
    rw [hdrop2]
    exact commentMatch_none_of_head '"' _ (by decide) (by decide)
  have hscanB : ((Scanner.mk ('/' :: '*' :: ((' ' :: (commentJoin c1 cs ++ [' '])) ++
      '*' :: '/' :: '\n' ::
      ('"' :: (k ++ '"' :: ' ' :: '=' :: ' ' :: '"' :: (v ++ ['"', ';'])))))
      (0 + ('/' :: '*' :: ((' ' :: (commentJoin c1 cs ++ [' '])) ++ ['*', '/'])).length)
      (0 + ('/' :: '*' :: ((' ' :: (commentJoin c1 cs ++ [' '])) ++
        ['*', '/'])).count '\n')).scan .whitespace).2 =
      Scanner.mk ('/' :: '*' :: ((' ' :: (commentJoin c1 cs ++ [' '])) ++
        '*' :: '/' :: '\n' ::
        ('"' :: (k ++ '"' :: ' ' :: '=' :: ' ' :: '"' :: (v ++ ['"', ';'])))))
      (0 + ('/' :: '*' :: ((' ' :: (commentJoin c1 cs ++ [' '])) ++ ['*', '/'])).length
        + 1)
      (0 + ('/' :: '*' :: ((' ' :: (commentJoin c1 cs ++ [' '])) ++
        ['*', '/'])).count '\n' + 1) := by
    rw [scan_ws_eq]
    dsimp only
    rw [hdrop1, List.takeWhile_cons_of_pos (by decide),
      List.takeWhile_cons_of_neg (by decide)]
    rfl
  obtain ⟨M, hM⟩ : ∃ M, ('/' :: '*' :: ((' ' :: (commentJoin c1 cs ++ [' '])) ++
      '*' :: '/' :: '\n' ::
      ('"' :: (k ++ '"' :: ' ' :: '=' :: ' ' :: '"' :: (v ++ ['"', ';']))))).length =
      M + 1 :=
    ⟨_, by rw [List.length_cons]⟩
  have hwc : commentLoop
      (((Scanner.mk ('/' :: '*' :: ((' ' :: (commentJoin c1 cs ++ [' '])) ++
        '*' :: '/' :: '\n' ::
        ('"' :: (k ++ '"' :: ' ' :: '=' :: ' ' :: '"' :: (v ++ ['"', ';'])))))
        0 0).scan .whitespace).2.string.length + 1)
      ((Scanner.mk ('/' :: '*' :: ((' ' :: (commentJoin c1 cs ++ [' '])) ++
        '*' :: '/' :: '\n' ::
        ('"' :: (k ++ '"' :: ' ' :: '=' :: ' ' :: '"' :: (v ++ ['"', ';'])))))
        0 0).scan .whitespace).2 [] =
      (Scanner.mk ('/' :: '*' :: ((' ' :: (commentJoin c1 cs ++ [' '])) ++
        '*' :: '/' :: '\n' ::
        ('"' :: (k ++ '"' :: ' ' :: '=' :: ' ' :: '"' :: (v ++ ['"', ';'])))))
        (0 + ('/' :: '*' :: ((' ' :: (commentJoin c1 cs ++ [' '])) ++
          ['*', '/'])).length + 1)
        (0 + ('/' :: '*' :: ((' ' :: (commentJoin c1 cs ++ [' '])) ++
          ['*', '/'])).count '\n' + 1),
        processComment ('/' :: '*' :: ((' ' :: (commentJoin c1 cs ++ [' '])) ++
          ['*', '/']))) := by
    rw [hws2]
    show commentLoop
      (('/' :: '*' :: ((' ' :: (commentJoin c1 cs ++ [' '])) ++
        '*' :: '/' :: '\n' ::
        ('"' :: (k ++ '"' :: ' ' :: '=' :: ' ' :: '"' :: (v ++ ['"', ';']))))).length + 1)
      (Scanner.mk ('/' :: '*' :: ((' ' :: (commentJoin c1 cs ++ [' '])) ++
        '*' :: '/' :: '\n' ::
        ('"' :: (k ++ '"' :: ' ' :: '=' :: ' ' :: '"' :: (v ++ ['"', ';']))))) 0 0) [] = _
    rw [commentLoop_succ_some _ _ [] _ _ hcmA]
    dsimp only
    rw [hscanB, hM]
    rw [commentLoop_succ_none M _ _ hcmB]
    rw [List.nil_append]
  have hpm : patMatch .entry (('/' :: '*' :: ((' ' :: (commentJoin c1 cs ++ [' '])) ++
      '*' :: '/' :: '\n' ::
      ('"' :: (k ++ '"' :: ' ' :: '=' :: ' ' :: '"' :: (v ++ ['"', ';']))))).drop
      (0 + ('/' :: '*' :: ((' ' :: (commentJoin c1 cs ++ [' '])) ++ ['*', '/'])).length
        + 1)) =
      some ('"' :: (k ++ '"' :: ' ' :: '=' :: ' ' :: '"' :: (v ++ ['"', ';'])), []) := by
    rw [hdrop2]
    show (entryMatch _).map (fun r => (r.1, r.2.2.2)) = _
    rw [kv_entryMatch k v hkn hvq hvn]
    rfl
  have hsb : searchBy entryMatch
      ('"' :: (k ++ '"' :: ' ' :: '=' :: ' ' :: '"' :: (v ++ ['"', ';']))) =
      some ('"' :: (k ++ '"' :: ' ' :: '=' :: ' ' :: '"' :: (v ++ ['"', ';'])),
        k, v, []) := by
    rw [searchBy_cons, kv_entryMatch k v hkn hvq hvn]
  rw [loadsLoop_succ_entry _ _ [] hmore _ _ hwc _ [] hpm _ hsb,
    processComment_block c1 cs hgood hne]
  have hlen : ('/' :: '*' :: ((' ' :: (commentJoin c1 cs ++ [' '])) ++
      '*' :: '/' :: '\n' ::
      ('"' :: (k ++ '"' :: ' ' :: '=' :: ' ' :: '"' :: (v ++ ['"', ';']))))).length =
      ('/' :: '*' :: ((' ' :: (commentJoin c1 cs ++ [' '])) ++ ['*', '/'])).length + 1 +
        ('"' :: (k ++ '"' :: ' ' :: '=' :: ' ' :: '"' :: (v ++ ['"', ';']))).length := by
    have h2 := congrArg List.length hsplit
    simp only [List.length_cons, List.length_append, List.length_nil] at h2 ⊢
    omega
  rw [hM]
  rw [loadsLoop_done M _ _ (by
    rw [Scanner.has_more]
    simp only [decide_eq_true_eq]
    rw [hlen]
    omega)]
  exact ⟨_, rfl⟩

/-- With no comments, `strings_format` is exactly the key/value line. -/
theorem strings_format_nil (e : DotStringsEntry) (hc : e.comments = []) :
    e.strings_format =
      '"' :: (e.key ++ '"' :: ' ' :: '=' :: ' ' :: '"' :: (e.value ++ ['"', ';'])) := by
  obtain ⟨k, v, cms, ln⟩ := e
  simp only at hc
  subst hc
  show '"' :: k ++ '"' :: " = ".toList ++ '"' :: v ++ "\";".toList =
    '"' :: (k ++ '"' :: ' ' :: '=' :: ' ' :: '"' :: (v ++ ['"', ';']))
  rw [show (" = ".toList : List Char) = [' ', '=', ' '] from rfl,
    show ("\";".toList : List Char) = ['"', ';'] from rfl]
  simp [List.cons_append, List.append_assoc]

/-- Claim C3 (corrected): the original round-trip claim is false in general
(see the counterexample: a parsed comment may contain the close sequence of
a block comment, and then its reserialization fails to parse).  Amended
form: for every entry `e` produced by `loads` on some text `t`, if no
comment of `e` contains the two-character block-close sequence, if a
multi-comment list neither starts nor ends with an empty comment, and if
the value contains no double-quote character, then parsing
`e.strings_format` yields exactly one entry with the same key, value and
comment list. -/
theorem c3_round_trip_amended (t : List Char) (es : List DotStringsEntry)
    (e : DotStringsEntry) (hload : loads t = .ok es) (he : e ∈ es)
    (hcom : ∀ c ∈ e.comments, ∀ a b, c ≠ a ++ '*' :: '/' :: b)
    (hends : ∀ c1 cs, e.comments = c1 :: cs → cs ≠ [] →
      c1 ≠ [] ∧ cs.getLastD c1 ≠ [])
    (hvq : '"' ∉ e.value) :
    ∃ l, loads e.strings_format = .ok [⟨e.key, e.value, e.comments, l⟩] := by
  have hg : '\n' ∉ e.key ∧ '\n' ∉ e.value ∧
      ∀ c ∈ e.comments, '\n' ∉ c ∧ pyStrip c = c :=
    loads_good t es hload e he
  obtain ⟨hkn, hvn, hcg⟩ := hg
  cases hc : e.comments with
  | nil =>
    rw [strings_format_nil e hc]
    exact ⟨0, loads_kv e.key e.value hkn hvq hvn⟩
  | cons c1 cs =>
    rw [strings_format_block e c1 cs hc]
    exact loads_block e.key e.value c1 cs hkn hvq hvn (hc ▸ hcg) (hc ▸ hcom)
      (hends c1 cs hc)

/-- Counterexample to the original C3: the text parses fine and produces
one entry whose single comment contains the block-close sequence, but
reserializing that entry gives text that `loads` rejects. -/
theorem c3_counterexample :
    loads "// a */ b\n\"k\" = \"v\";".toList =
      .ok [⟨"k".toList, "v".toList, ["a */ b".toList], 1⟩] ∧
    loads (DotStringsEntry.strings_format
        ⟨"k".toList, "v".toList, ["a */ b".toList], 1⟩) =
      .error (.expectedEntry 8) := by
  decide

/-- Witness: the amended C3 applied to a concrete one-comment entry. -/
theorem c3_round_trip_amended_witness :
    ∃ l, loads (DotStringsEntry.strings_format
        ⟨"k".toList, "v".toList, ["c".toList], 1⟩) =
      .ok [⟨"k".toList, "v".toList, ["c".toList], l⟩] := by
  refine c3_round_trip_amended "/* c */\n\"k\" = \"v\";".toList
    [⟨"k".toList, "v".toList, ["c".toList], 1⟩]
    ⟨"k".toList, "v".toList, ["c".toList], 1⟩
    (by decide) (by decide) ?_ ?_ (by decide)
  · intro c hc2 a b
    have hc3 : c = "c".toList := by
      simp only [List.mem_singleton] at hc2
      exact hc2
    subst hc3
    exact noSS_of_no_star _ (by decide) a b
  · intro c1 cs h hne
    injection h with h1 h2
    exact absurd h2.symm hne

/-- Claim C10: the deduplication pass of `normalize` unconditionally reads
the first element of the (sorted) entry list, so a file parsing to zero
entries makes normalization fail with an index error rather than
producing empty output. -/
theorem c10_normalize_empty_index_error (rd sc : Bool) :
    normalizeEntries [] rd sc = .error .indexError := by
  rw [normalizeEntries, List.mergeSort_nil]

end Dotstrings
